import Mathlib

/-!
Verification of the core storage engine of the Pokec social-network repository.

The development shallowly embeds the three core components:
* `src/core/indexing.py` — class `AVLTree` (`_Node`, `add`, `delete`, `range_search`),
* `src/core/graph.py` — class `Graph` (`add_edge`, `remove_node`, `shortest_path`),
* `src/core/storage.py` — class `Storage` (`delete_user`, `modify_user`,
  `linear_search_by_age_range`, `search_by_age_range`).

Modelling conventions:
* Python ints become `Int`; tree heights and node counts are cached as Python ints
  and modelled as `Nat` where the code only ever stores non-negative values
  (heights start at 1 and are recomputed as `1 + max`), and as `Int` where the
  Python value could in principle be any int (the `size` counter).
* Python lists become `List`, `list.remove` is `List.erase` (first occurrence),
  `list.append` is `· ++ [x]`.
* Python dicts (insertion ordered) become association lists `List (Int × α)`;
  `collections.defaultdict(list)` access that creates a missing entry is modelled
  explicitly (`ddAccess`).  Python `set` becomes `Finset Int`.
* The `_Node.parent` back-pointers of `indexing.py` are redundant bookkeeping:
  every structural update is also propagated by the recursive caller reassigning
  `node.left` / `node.right` (or `self.root`), so the functional embedding drops
  them.
* Fallible code returns `Except PyErr`; a Python method call on an attribute that
  does not exist on the receiver's class raises `AttributeError`, which is modelled
  by `PyErr.attributeError`.
* `Graph.remove_node` is annotated `-> None` and every return path of it returns
  `None`; its return value is modelled as `Option Bool` (`none` = Python `None`)
  so that claims about a `False` return value are statable.
-/

namespace Pokec

/-! ## `src/core/indexing.py`: the AVL tree -/

/-- `_Node` of `indexing.py`: key, list of values (`self.value = [value]` at
construction), cached height, left and right children.  Parent pointers are
omitted (see header). -/
inductive Node where
  | nil : Node
  | node (key : Int) (value : List Int) (height : Nat) (left right : Node) : Node
deriving DecidableEq, Repr

namespace Node

/-- `AVLTree._height`: cached height, 0 for `None`. -/
def ht : Node → Nat
  | nil => 0
  | node _ _ h _ _ => h

/-- `AVLTree._balance_factor`: difference of the children's cached heights. -/
def balance_factor : Node → Int
  | nil => 0
  | node _ _ _ l r => (ht l : Int) - (ht r : Int)

/-- `AVLTree._rotate_left(z)`.  Python reads `y = z.right` and crashes when
`z.right is None`; the code only calls it guarded, so the two impossible
patterns return the input unchanged.  `_update_height` is applied to `z` first
and then to `y`, each time from the (new) children's cached heights. -/
def rotate_left : Node → Node
  | nil => nil
  | node k v h l nil => node k v h l nil
  | node k v _ l (node rk rv _ rl rr) =>
    let z := node k v (1 + max (ht l) (ht rl)) l rl
    node rk rv (1 + max (ht z) (ht rr)) z rr

/-- `AVLTree._rotate_right(z)`, mirror image of `rotate_left`. -/
def rotate_right : Node → Node
  | nil => nil
  | node k v h nil r => node k v h nil r
  | node k v _ (node lk lv _ ll lr) r =>
    let z := node k v (1 + max (ht lr) (ht r)) lr r
    node lk lv (1 + max (ht ll) (ht z)) ll z

/-- `AVLTree._rebalance(node)`: update the cached height, then repair a balance
factor of ±2 with a single or double rotation. -/
def rebalance : Node → Node
  | nil => nil
  | node k v _ l r =>
    let h1 := 1 + max (ht l) (ht r)
    let bal : Int := (ht l : Int) - (ht r : Int)
    if bal > 1 then
      if balance_factor l < 0 then rotate_right (node k v h1 (rotate_left l) r)
      else rotate_right (node k v h1 l r)
    else if bal < -1 then
      if balance_factor r > 0 then rotate_left (node k v h1 l (rotate_right r))
      else rotate_left (node k v h1 l r)
    else node k v h1 l r

/-- `_insert_recursive` of `AVLTree.add`.  The boolean records whether a new
node was created (`self.size += 1` in Python).  On an equal key the value is
appended to the node's list — with no membership check — and the node is
returned without rebalancing; all ancestors on the path still rebalance. -/
def insertRec (k v : Int) : Node → Node × Bool
  | nil => (node k [v] 1 nil nil, true)
  | node key val h l r =>
    if k < key then
      let p := insertRec k v l
      (rebalance (node key val h p.1 r), p.2)
    else if key < k then
      let p := insertRec k v r
      (rebalance (node key val h l p.1), p.2)
    else (node key (val ++ [v]) h l r, false)

/-- `AVLTree._min_node`: leftmost node's key and value list.  Python would
crash on `None`; the `nil` result is junk and unreachable in the callers. -/
def min_node : Node → Int × List Int
  | nil => (0, [])
  | node k v _ nil _ => (k, v)
  | node _ _ _ (node lk lv lh ll lr) _ => min_node (node lk lv lh ll lr)

/-- The mutation `successor.value = []` performed by `AVLTree.delete` before
recursively deleting the successor: empty the value list of the leftmost node. -/
def emptyMinValue : Node → Node
  | nil => nil
  | node k _ h nil r => node k [] h nil r
  | node k v h (node lk lv lh ll lr) r => node k v h (emptyMinValue (node lk lv lh ll lr)) r

/-- Number of tree nodes (distinct keys stored). -/
def numNodes : Node → Nat
  | nil => 0
  | node _ _ _ l r => 1 + numNodes l + numNodes r

/-- `_delete_recursive` of `AVLTree.delete`, with `v?` the captured
`value_to_remove`.  The `Nat` component counts `self.size -= 1` decrements.
At an equal key: if `value_to_remove` is given, present in the list, and the
list stays non-empty after `list.remove`, the node is kept and rebalanced.
In *every other* case — including a given `value_to_remove` that is *not* in
the node's list — control falls through to the structural deletion of the
node.  The two-children case copies the successor's key and value into the
node, empties `successor.value`, and recursively deletes the successor's key
from the right subtree (the direct returns of the leaf and one-child cases
skip `_rebalance`; the two-children case falls through to it). -/
def deleteRec (v? : Option Int) (k : Int) (n : Node) : Node × Nat :=
  match n with
  | nil => (nil, 0)
  | node key val h l r =>
    if k < key then
      let p := deleteRec v? k l
      (rebalance (node key val h p.1 r), p.2)
    else if key < k then
      let p := deleteRec v? k r
      (rebalance (node key val h l p.1), p.2)
    else
      let val' := match v? with
        | some v => if v ∈ val then val.erase v else val
        | none => val
      let hit : Bool := match v? with
        | some v => decide (v ∈ val) && decide (val.erase v ≠ [])
        | none => false
      if hit then (rebalance (node key val' h l r), 0)
      else
        match l, r with
        | nil, nil => (nil, 1)
        | nil, node rk rv rh rl rr => (node rk rv rh rl rr, 1)
        | node lk lv lh ll lr, nil => (node lk lv lh ll lr, 1)
        | node lk lv lh ll lr, node rk rv rh rl rr =>
          let s := min_node (node rk rv rh rl rr)
          let p := deleteRec v? s.1 (emptyMinValue (node rk rv rh rl rr))
          (rebalance (node s.1 s.2 h (node lk lv lh ll lr) p.1), p.2)
termination_by numNodes n
decreasing_by
  all_goals
    have hm : ∀ m : Node, numNodes (emptyMinValue m) = numNodes m := by
      intro m
      induction m with
      | nil => rfl
      | node mk mv mh ml mr ihl _ =>
        cases ml with
        | nil => rfl
        | node lk2 lv2 lh2 ll2 lr2 => simpa [emptyMinValue, numNodes] using ihl
  all_goals simp [numNodes, hm]
  all_goals omega

/-- `_traverse` of `AVLTree.range_search`: pruned in-order collection of the
value lists of all keys in `[min_key, max_key]`. -/
def rangeSearchAux (min_key max_key : Int) : Node → List Int
  | nil => []
  | node key val _ l r =>
    (if key > min_key then rangeSearchAux min_key max_key l else []) ++
    (if min_key ≤ key ∧ key ≤ max_key then val else []) ++
    (if key < max_key then rangeSearchAux min_key max_key r else [])

/-- Binary search for a key, following the same comparisons as `add` and
`delete`; returns the stored value list. -/
def findVals : Node → Int → Option (List Int)
  | nil, _ => none
  | node key val _ l r, k =>
    if k < key then findVals l k else if key < k then findVals r k else some val

/-- In-order contents of the tree as (key, id) pairs, one pair per stored id. -/
def contents : Node → List (Int × Int)
  | nil => []
  | node k v _ l r => contents l ++ v.map (fun id => (k, id)) ++ contents r

/-- True (recomputed) height, ignoring the cached `height` fields. -/
def realHeight : Node → Nat
  | nil => 0
  | node _ _ _ l r => 1 + max (realHeight l) (realHeight r)

/-- Every cached `height` field equals the true height of its subtree. -/
def htOk : Node → Bool
  | nil => true
  | node _ _ h l r =>
    (h == 1 + max (realHeight l) (realHeight r)) && htOk l && htOk r

/-- AVL balance: at every node the children's true heights differ by at most 1. -/
def balancedB : Node → Bool
  | nil => true
  | node _ _ _ l r =>
    decide (realHeight l ≤ realHeight r + 1) && decide (realHeight r ≤ realHeight l + 1) &&
    balancedB l && balancedB r

/-- All keys of the tree satisfy `p`. -/
def allKeys (p : Int → Bool) : Node → Bool
  | nil => true
  | node k _ _ l r => p k && allKeys p l && allKeys p r

/-- Binary-search-tree ordering on keys. -/
def ordered : Node → Bool
  | nil => true
  | node k _ _ l r =>
    allKeys (fun x => decide (x < k)) l && allKeys (fun x => decide (k < x)) r &&
    ordered l && ordered r

/-- Well-formedness: correct cached heights and AVL balance. -/
def WFn (n : Node) : Prop := htOk n = true ∧ balancedB n = true

end Node

/-- Class `AVLTree` of `indexing.py`: root and the `self.size` counter
(a Python int, possibly decremented; modelled as `Int`). -/
structure AVLTree where
  root : Node := Node.nil
  size : Int := 0
deriving DecidableEq, Repr

/-- A fresh `AVLTree()`. -/
def AVLTree.empty : AVLTree := {}

/-- `AVLTree.add(key, value)`. -/
def AVLTree.add (t : AVLTree) (k v : Int) : AVLTree :=
  match t.root with
  | Node.nil => { root := Node.node k [v] 1 Node.nil Node.nil, size := t.size + 1 }
  | Node.node key val h l r =>
    let p := Node.insertRec k v (Node.node key val h l r)
    { root := p.1, size := if p.2 then t.size + 1 else t.size }

/-- `AVLTree.delete(key, value_to_remove)`; `if not self.root: return`. -/
def AVLTree.delete (t : AVLTree) (k : Int) (v? : Option Int) : AVLTree :=
  match t.root with
  | Node.nil => t
  | Node.node key val h l r =>
    let p := Node.deleteRec v? k (Node.node key val h l r)
    { root := p.1, size := t.size - p.2 }

/-- `AVLTree.range_search(min_key, max_key)`. -/
def AVLTree.range_search (t : AVLTree) (min_key max_key : Int) : List Int :=
  Node.rangeSearchAux min_key max_key t.root

/-! ## Python dict / defaultdict helpers (insertion-ordered association lists) -/

/-- `d.get(k)` / `k in d` combined: lookup without creating an entry. -/
def alistLookup {α : Type} : List (Int × α) → Int → Option α
  | [], _ => none
  | (k, v) :: rest, key => if key = k then some v else alistLookup rest key

/-- `d[k] = v`: replace in place (keeping the key's position) or append a new
entry at the end. -/
def alistSet {α : Type} : List (Int × α) → Int → α → List (Int × α)
  | [], key, v => [(key, v)]
  | (k, w) :: rest, key, v =>
    if key = k then (key, v) :: rest else (k, w) :: alistSet rest key v

/-- `del d[k]`: drop the entry. -/
def removeKey {α : Type} : List (Int × α) → Int → List (Int × α)
  | [], _ => []
  | (k, v) :: rest, key => if key = k then rest else (k, v) :: removeKey rest key

/-- `defaultdict(list)` subscript access `d[k]`: returns the stored list, and
*creates* an empty entry (appended at the end) when the key is missing. -/
def ddAccess (d : List (Int × List Int)) (k : Int) : List Int × List (Int × List Int) :=
  match alistLookup d k with
  | some l => (l, d)
  | none => ([], d ++ [(k, [])])

/-- `d[k].append(x)` on a `defaultdict(list)`. -/
def ddAppend (d : List (Int × List Int)) (k x : Int) : List (Int × List Int) :=
  match alistLookup d k with
  | some l => alistSet d k (l ++ [x])
  | none => d ++ [(k, [x])]

/-! ## `src/core/graph.py`: the social graph -/

/-- Class `Graph`: `friends` (forward adjacency), `followers` (reverse
adjacency), both `defaultdict(list)`, and the node `set`. -/
structure Graph where
  friends : List (Int × List Int) := []
  followers : List (Int × List Int) := []
  nodes : Finset Int := ∅
deriving DecidableEq

/-- A fresh `Graph()`. -/
def Graph.empty : Graph := {}

/-- `Graph.add_edge(user_a, user_b)`: forward edge a→b, reverse entry b←a,
both endpoints added to the node set. -/
def Graph.add_edge (g : Graph) (user_a user_b : Int) : Graph :=
  { friends := ddAppend g.friends user_a user_b
    followers := ddAppend g.followers user_b user_a
    nodes := insert user_b (insert user_a g.nodes) }

/-- `Graph.remove_node(user_id)`.  The function is annotated `-> None` and
every return path returns `None` (modelled as the constant `none` in the
`Option Bool` component).  For a known node: strip `user_id` from the
`followers` list of every forward target (each `self.followers[target]`
subscript may create an empty entry), delete `friends[user_id]`, then strip
`user_id` from the `friends` list of every reverse source (each
`self.friends[src]` subscript may create an empty entry), delete
`followers[user_id]`, and remove `user_id` from the node set.
`list.remove` removes the first occurrence only (`List.erase`). -/
def Graph.remove_node (g : Graph) (user_id : Int) : Graph × Option Bool :=
  if user_id ∉ g.nodes then (g, none)
  else
    let g1 :=
      match alistLookup g.friends user_id with
      | none => g
      | some targets =>
        let followers' := targets.foldl
          (fun fo t =>
            let a := ddAccess fo t
            if user_id ∈ a.1 then alistSet a.2 t (a.1.erase user_id) else a.2)
          g.followers
        { g with friends := removeKey g.friends user_id, followers := followers' }
    let g2 :=
      match alistLookup g1.followers user_id with
      | none => g1
      | some srcs =>
        let friends' := srcs.foldl
          (fun fr s =>
            let a := ddAccess fr s
            if user_id ∈ a.1 then alistSet a.2 s (a.1.erase user_id) else a.2)
          g1.friends
        { g1 with friends := friends', followers := removeKey g1.followers user_id }
    ({ g2 with nodes := g2.nodes.erase user_id }, none)

/-- `self.friends.get(node, [])` — neighbour list without creating an entry. -/
def Graph.neighborsList (g : Graph) (n : Int) : List Int :=
  (alistLookup g.friends n).getD []

/-- Inner `for neighbor in self.friends.get(node, [])` loop of
`Graph.shortest_path`: early-returns the found path (`.inl`), otherwise
returns the updated visited set and queue (`.inr`). -/
def bfsScan (end_user : Int) (path : List Int) :
    Finset Int → List (Int × List Int) → List Int →
    List Int ⊕ (Finset Int × List (Int × List Int))
  | visited, queue, [] => Sum.inr (visited, queue)
  | visited, queue, n :: rest =>
    if n = end_user then Sum.inl (path ++ [end_user])
    else if n ∉ visited then
      bfsScan end_user path (insert n visited) (queue ++ [(n, path ++ [n])]) rest
    else bfsScan end_user path visited queue rest

/-- `while queue:` loop of `Graph.shortest_path`.  The Python loop always
terminates because only unvisited nodes are enqueued; the embedding uses
explicit fuel, shown sufficient for the fuel chosen in `shortest_path`. -/
def bfsLoop (g : Graph) (end_user : Int) :
    Nat → List (Int × List Int) → Finset Int → Option (List Int)
  | 0, _, _ => none
  | _ + 1, [], _ => none
  | fuel + 1, (n, path) :: rest, visited =>
    match bfsScan end_user path visited rest (g.neighborsList n) with
    | Sum.inl p => some p
    | Sum.inr (v', q') => bfsLoop g end_user fuel q' v'

/-- Every identifier that can ever be visited by the BFS: the node set plus
every key and every listed neighbour of `friends`. -/
def Graph.support (g : Graph) : Finset Int :=
  g.nodes ∪ (g.friends.map Prod.fst).toFinset ∪ ((g.friends.map Prod.snd).flatten).toFinset

/-- `Graph.shortest_path(start_user, end_user)`: the `start == end` check comes
*before* the membership check; then BFS from `start_user` with
`visited = {start_user}` and queue `[(start_user, [start_user])]`. -/
def Graph.shortest_path (g : Graph) (start_user end_user : Int) : Option (List Int) :=
  if start_user = end_user then some [start_user]
  else if start_user ∉ g.nodes ∨ end_user ∉ g.nodes then none
  else bfsLoop g end_user (g.support.card + 1) [(start_user, [start_user])] {start_user}

/-! ## `src/core/storage.py`: the coordinating `Storage` layer -/

/-- A Python exception relevant to the embedded code paths. -/
inductive PyErr where
  | attributeError : PyErr
deriving DecidableEq, Repr

/-- A user record.  `storage.py` builds exactly these dict keys for every
record (`user_id`, `gender`, `age`, `eye_color`, `education`, `languages`,
`music`); the dict-shaped record is modelled as this fixed-shape structure. -/
structure Record where
  user_id : Int
  gender : Option String := none
  age : Option Int := none
  eye_color : Option String := none
  education : Option String := none
  languages : Option String := none
  music : Option String := none
deriving DecidableEq, Repr

/-- A change-set for `Storage.modify_user`: `some x` means the key is present
in the `updates` dict with value `x` (which may itself be Python `None`). -/
structure Updates where
  user_id : Option Int := none
  gender : Option (Option String) := none
  age : Option (Option Int) := none
  eye_color : Option (Option String) := none
  education : Option (Option String) := none
  languages : Option (Option String) := none
  music : Option (Option String) := none
deriving DecidableEq, Repr

/-- The `for key, value in updates.items(): if key != "age": current_data[key] = value`
loop of `Storage.modify_user`: overwrite every present non-age field. -/
def applyUpdates (r0 : Record) (u : Updates) : Record :=
  { user_id := u.user_id.getD r0.user_id
    gender := u.gender.getD r0.gender
    age := r0.age
    eye_color := u.eye_color.getD r0.eye_color
    education := u.education.getD r0.education
    languages := u.languages.getD r0.languages
    music := u.music.getD r0.music }

/-- Class `Storage` of `src/core/storage.py`: the primary map (insertion-ordered
dict), the age index and the social graph.  The CSV paths and loading routines
are out-of-scope I/O and are omitted. -/
structure Storage where
  hash_map : List (Int × Record) := []
  age_index : AVLTree := AVLTree.empty
  social_graph : Graph := Graph.empty
deriving DecidableEq

/-- `Storage.linear_search_by_age_range(min_age, max_age)`: normalize the
bounds, then scan `hash_map.values()` in insertion order. -/
def Storage.linear_search_by_age_range (s : Storage) (min_age max_age : Int) : List Record :=
  let mn := if min_age > max_age then max_age else min_age
  let mx := if min_age > max_age then min_age else max_age
  (s.hash_map.map Prod.snd).filter
    (fun u => match u.age with
      | some a => decide (mn ≤ a) && decide (a ≤ mx)
      | none => false)

/-- `Storage.search_by_age_range(min_age, max_age)`: after normalizing the
bounds it calls `self.age_index.range_query(min_age, max_age)`, but class
`AVLTree` in `indexing.py` defines `range_search`, not `range_query`, so the
call unconditionally raises `AttributeError`. -/
def Storage.search_by_age_range (_s : Storage) (_min_age _max_age : Int) :
    Except PyErr (List Record) :=
  Except.error PyErr.attributeError

/-- `Storage.delete_user(user_id)`.  For a present id: pop the record from the
map; when the record has an age it calls
`self.age_index.delete_record_id(age, user_id)` inside
`try: ... except AttributeError: pass` — `AVLTree` has no `delete_record_id`
attribute, so the `AttributeError` is swallowed and the age index is left
unchanged — then removes the node from the graph and returns `True`. -/
def Storage.delete_user (s : Storage) (user_id : Int) : Storage × Bool :=
  match alistLookup s.hash_map user_id with
  | none => (s, false)
  | some _ =>
    ({ hash_map := removeKey s.hash_map user_id
       age_index := s.age_index
       social_graph := (s.social_graph.remove_node user_id).1 }, true)

/-- `Storage.modify_user(user_id, updates)`.  Returns the post-call store and
either the Python return value or the escaping exception.  When the change-set
sets the age to a new non-`None` value different from the current one:
`self.age_index.delete_record_id(old_age, user_id)` raises `AttributeError`
which is caught and ignored (stale index entry kept), `current_data["age"]`
is assigned (the record dict in the map is mutated in place), and then
`self.age_index.insert(new_age, user_id)` raises `AttributeError` — `AVLTree`
defines `add`, not `insert` — which is *not* caught and escapes before the
non-age fields are written.  Otherwise the non-age fields are overwritten and
`True` is returned. -/
def Storage.modify_user (s : Storage) (user_id : Int) (updates : Updates) :
    Storage × Except PyErr Bool :=
  match alistLookup s.hash_map user_id with
  | none => (s, Except.ok false)
  | some current_data =>
    let old_age := current_data.age
    let new_age := updates.age.getD old_age
    if new_age.isSome ∧ new_age ≠ old_age then
      let cur1 := { current_data with age := new_age }
      ({ s with hash_map := alistSet s.hash_map user_id cur1 },
       Except.error PyErr.attributeError)
    else
      let cur2 := applyUpdates current_data updates
      ({ s with hash_map := alistSet s.hash_map user_id cur2 }, Except.ok true)

/-! ## Auxiliary specification-side definitions -/

/-- One mutating operation on the ordered index. -/
inductive Op where
  | addOp (k v : Int) : Op
  | delOp (k : Int) (v? : Option Int) : Op
deriving DecidableEq, Repr

/-- Run a sequence of `add` / `delete` operations on a fresh `AVLTree()`. -/
def applyOps (ops : List Op) : AVLTree :=
  ops.foldl
    (fun t op => match op with
      | Op.addOp k v => t.add k v
      | Op.delOp k v? => t.delete k v?)
    AVLTree.empty

/-- Append `v` to the value list of the node holding `k`, following the same
comparison path as `add` and `delete`, touching nothing else.  Used to state
what `add` does on an already-present key. -/
def Node.appendAt (k v : Int) : Node → Node
  | Node.nil => Node.nil
  | Node.node key val h l r =>
    if k < key then Node.node key val h (Node.appendAt k v l) r
    else if key < k then Node.node key val h l (Node.appendAt k v r)
    else Node.node key (val ++ [v]) h l r

/-- A walk of `n` hops from `a` to the second argument along forward
(`friends`) edges, exactly as `shortest_path`'s BFS follows them. -/
inductive Walk (g : Graph) (a : Int) : Int → Nat → Prop where
  | refl : Walk g a a 0
  | step {x y : Int} {n : Nat} :
      Walk g a x n → y ∈ g.neighborsList x → Walk g a y (n + 1)

/-- Consecutive elements of the list are joined by forward edges. -/
def Chained (g : Graph) (p : List Int) : Prop :=
  List.Chain' (fun x y => y ∈ g.neighborsList x) p

/-- The example graph of the specification's §8: edges 1→2, 1→16, 16→17,
17→18. -/
def gEx : Graph :=
  (((Graph.empty.add_edge 1 2).add_edge 1 16).add_edge 16 17).add_edge 17 18

instance exceptDecEq {ε α : Type} [DecidableEq ε] [DecidableEq α] :
    DecidableEq (Except ε α) := fun x y =>
  match x, y with
  | .ok a, .ok b => if h : a = b then isTrue (by rw [h]) else isFalse (by simp [h])
  | .error a, .error b => if h : a = b then isTrue (by rw [h]) else isFalse (by simp [h])
  | .ok _, .error _ => isFalse (by simp)
  | .error _, .ok _ => isFalse (by simp)

/-! ## Concrete stores used as failing inputs -/

/-- A store holding user 1 (age 30), the matching age-index entry and the
graph edge 1→2. -/
def c1Store : Storage :=
  { hash_map := [(1, { user_id := 1, age := some 30 })]
    age_index := AVLTree.empty.add 30 1
    social_graph := Graph.empty.add_edge 1 2 }

/-! ## AVL invariant lemmas -/
namespace Node

theorem ht_node {k : Int} {v : List Int} {h : Nat} {l r : Node} :
    ht (node k v h l r) = h := rfl

theorem realHeight_node {k : Int} {v : List Int} {h : Nat} {l r : Node} :
    realHeight (node k v h l r) = 1 + max (realHeight l) (realHeight r) := rfl

theorem htOk_node {k : Int} {v : List Int} {h : Nat} {l r : Node} :
    htOk (node k v h l r) = true ↔
      h = 1 + max (realHeight l) (realHeight r) ∧ htOk l = true ∧ htOk r = true := by
  simp [htOk, and_assoc]

theorem balancedB_node {k : Int} {v : List Int} {h : Nat} {l r : Node} :
    balancedB (node k v h l r) = true ↔
      realHeight l ≤ realHeight r + 1 ∧ realHeight r ≤ realHeight l + 1 ∧
      balancedB l = true ∧ balancedB r = true := by
  simp [balancedB, and_assoc]

theorem ht_eq_real {n : Node} (hn : htOk n = true) : ht n = realHeight n := by
  cases n with
  | nil => rfl
  | node k v h l r =>
    rw [htOk_node] at hn
    simp [ht_node, realHeight_node, hn.1]

theorem rebalance_spec (k : Int) (v : List Int) (h0 : Nat) (l r : Node)
    (hlo : htOk l = true) (hlb : balancedB l = true)
    (hro : htOk r = true) (hrb : balancedB r = true)
    (hd1 : realHeight l ≤ realHeight r + 2) (hd2 : realHeight r ≤ realHeight l + 2) :
    htOk (rebalance (node k v h0 l r)) = true ∧
    balancedB (rebalance (node k v h0 l r)) = true ∧
    max (realHeight l) (realHeight r) ≤ realHeight (rebalance (node k v h0 l r)) ∧
    realHeight (rebalance (node k v h0 l r)) ≤ 1 + max (realHeight l) (realHeight r) ∧
    (realHeight l ≤ realHeight r + 1 → realHeight r ≤ realHeight l + 1 →
      realHeight (rebalance (node k v h0 l r)) = 1 + max (realHeight l) (realHeight r)) := by
  have hlh := ht_eq_real hlo
  have hrh := ht_eq_real hro
  simp only [rebalance, hlh, hrh]
  by_cases hc1 : ((realHeight l : Int) - (realHeight r : Int) > 1)
  · rw [if_pos hc1]
    have hll2 : realHeight l = realHeight r + 2 := by omega
    cases l with
    | nil => simp [realHeight] at hll2
    | node lk lv lh ll lr =>
      rw [htOk_node] at hlo
      rw [balancedB_node] at hlb
      obtain ⟨hlhEq, hllo, hlro⟩ := hlo
      obtain ⟨hlb1, hlb2, hllb, hlrb⟩ := hlb
      have hllh := ht_eq_real hllo
      have hlrh := ht_eq_real hlro
      by_cases hc2 : balance_factor (node lk lv lh ll lr) < 0
      · rw [if_pos hc2]
        simp only [balance_factor, ht_node, hllh, hlrh] at hc2
        have hlr1 : 1 ≤ realHeight lr := by
          simp only [realHeight_node] at hll2; omega
        cases lr with
        | nil => simp [realHeight] at hlr1
        | node mk mv mh ml mr =>
          rw [htOk_node] at hlro
          rw [balancedB_node] at hlrb
          obtain ⟨hmhEq, hmlo, hmro⟩ := hlro
          obtain ⟨hmb1, hmb2, hmlb, hmrb⟩ := hlrb
          have hmlh := ht_eq_real hmlo
          have hmrh := ht_eq_real hmro
          simp only [rotate_left, rotate_right, ht_node, hllh, hmlh, hmrh, hrh]
          simp only [realHeight_node] at *
          refine ⟨?_, ?_, ?_, ?_, ?_⟩ <;>
            simp [htOk_node, balancedB_node, realHeight_node, hllo, hmlo, hmro, hro,
              hllb, hmlb, hmrb, hrb] <;>
            omega
      · rw [if_neg hc2]
        simp only [balance_factor, ht_node, hllh, hlrh] at hc2
        simp only [rotate_right, ht_node, hllh, hlrh, hrh]
        simp only [realHeight_node] at *
        refine ⟨?_, ?_, ?_, ?_, ?_⟩ <;>
          simp [htOk_node, balancedB_node, realHeight_node, hllo, hlro, hro,
            hllb, hlrb, hrb] <;>
          omega
  · rw [if_neg hc1]
    by_cases hc3 : ((realHeight l : Int) - (realHeight r : Int) < -1)
    · rw [if_pos hc3]
      have hrr2 : realHeight r = realHeight l + 2 := by omega
      cases r with
      | nil => simp [realHeight] at hrr2
      | node rk rv rh rl rr =>
        rw [htOk_node] at hro
        rw [balancedB_node] at hrb
        obtain ⟨hrhEq, hrlo, hrro⟩ := hro
        obtain ⟨hrb1, hrb2, hrlb, hrrb⟩ := hrb
        have hrlh := ht_eq_real hrlo
        have hrrh := ht_eq_real hrro
        by_cases hc4 : balance_factor (node rk rv rh rl rr) > 0
        · rw [if_pos hc4]
          simp only [balance_factor, ht_node, hrlh, hrrh] at hc4
          have hrl1 : 1 ≤ realHeight rl := by
            simp only [realHeight_node] at hrr2; omega
          cases rl with
          | nil => simp [realHeight] at hrl1
          | node mk mv mh ml mr =>
            rw [htOk_node] at hrlo
            rw [balancedB_node] at hrlb
            obtain ⟨hmhEq, hmlo, hmro⟩ := hrlo
            obtain ⟨hmb1, hmb2, hmlb, hmrb⟩ := hrlb
            have hmlh := ht_eq_real hmlo
            have hmrh := ht_eq_real hmro
            simp only [rotate_right, rotate_left, ht_node, hlh, hmlh, hmrh, hrrh]
            simp only [realHeight_node] at *
            refine ⟨?_, ?_, ?_, ?_, ?_⟩ <;>
              simp [htOk_node, balancedB_node, realHeight_node, hlo, hmlo, hmro, hrro,
                hlb, hmlb, hmrb, hrrb] <;>
              omega
        · rw [if_neg hc4]
          simp only [balance_factor, ht_node, hrlh, hrrh] at hc4
          simp only [rotate_left, ht_node, hlh, hrlh, hrrh]
          simp only [realHeight_node] at *
          refine ⟨?_, ?_, ?_, ?_, ?_⟩ <;>
            simp [htOk_node, balancedB_node, realHeight_node, hlo, hrlo, hrro,
              hlb, hrlb, hrrb] <;>
            omega
    · rw [if_neg hc3]
      refine ⟨?_, ?_, ?_, ?_, ?_⟩ <;>
        simp [htOk_node, balancedB_node, realHeight_node, hlo, hro, hlb, hrb] <;>
        omega


theorem insertRec_wf (k v : Int) : ∀ n : Node, htOk n = true → balancedB n = true →
    htOk (insertRec k v n).1 = true ∧ balancedB (insertRec k v n).1 = true ∧
    realHeight n ≤ realHeight (insertRec k v n).1 ∧
    realHeight (insertRec k v n).1 ≤ realHeight n + 1 := by
  intro n
  induction n with
  | nil => intro _ _; simp [insertRec, htOk, balancedB, realHeight]
  | node key val h l r ihl ihr =>
    intro ho hb
    rw [htOk_node] at ho
    rw [balancedB_node] at hb
    obtain ⟨hEq, hlo, hro⟩ := ho
    obtain ⟨hb1, hb2, hlb, hrb⟩ := hb
    by_cases hk1 : k < key
    · obtain ⟨iho, ihb, ihg1, ihg2⟩ := ihl hlo hlb
      simp only [insertRec, if_pos hk1]
      have hspec := rebalance_spec key val h (insertRec k v l).1 r iho ihb hro hrb
        (by omega) (by omega)
      obtain ⟨s1, s2, s3, s4, s5⟩ := hspec
      refine ⟨s1, s2, ?_, ?_⟩
      · rw [realHeight_node]
        by_cases hbal : realHeight (insertRec k v l).1 ≤ realHeight r + 1 ∧
            realHeight r ≤ realHeight (insertRec k v l).1 + 1
        · have := s5 hbal.1 hbal.2; omega
        · omega
      · rw [realHeight_node]; omega
    · by_cases hk2 : key < k
      · obtain ⟨iho, ihb, ihg1, ihg2⟩ := ihr hro hrb
        simp only [insertRec, if_neg hk1, if_pos hk2]
        have hspec := rebalance_spec key val h l (insertRec k v r).1 hlo hlb iho ihb
          (by omega) (by omega)
        obtain ⟨s1, s2, s3, s4, s5⟩ := hspec
        refine ⟨s1, s2, ?_, ?_⟩
        · rw [realHeight_node]
          by_cases hbal : realHeight l ≤ realHeight (insertRec k v r).1 + 1 ∧
              realHeight (insertRec k v r).1 ≤ realHeight l + 1
          · have := s5 hbal.1 hbal.2; omega
          · omega
        · rw [realHeight_node]; omega
      · simp only [insertRec, if_neg hk1, if_neg hk2]
        refine ⟨?_, ?_, ?_, ?_⟩ <;>
          simp [htOk_node, balancedB_node, realHeight_node, hEq, hlo, hro, hb1, hb2, hlb, hrb]



theorem realHeight_nil : realHeight nil = 0 := rfl

theorem emptyMinValue_realHeight : ∀ n : Node, realHeight (emptyMinValue n) = realHeight n := by
  intro n
  induction n with
  | nil => rfl
  | node k v h l r ihl _ =>
    cases l with
    | nil => rfl
    | node lk lv lh ll lr =>
      simp [emptyMinValue, realHeight_node] at ihl ⊢
      omega

theorem emptyMinValue_htOk : ∀ n : Node, htOk (emptyMinValue n) = htOk n := by
  intro n
  induction n with
  | nil => rfl
  | node k v h l r ihl _ =>
    cases l with
    | nil => rfl
    | node lk lv lh ll lr =>
      simp [emptyMinValue, htOk, emptyMinValue_realHeight, ihl]

theorem emptyMinValue_balancedB : ∀ n : Node, balancedB (emptyMinValue n) = balancedB n := by
  intro n
  induction n with
  | nil => rfl
  | node k v h l r ihl _ =>
    cases l with
    | nil => rfl
    | node lk lv lh ll lr =>
      simp [emptyMinValue, balancedB, emptyMinValue_realHeight, ihl]

theorem deleteRec_wf : ∀ (N : Nat) (v? : Option Int) (k : Int) (n : Node), numNodes n ≤ N →
    htOk n = true → balancedB n = true →
    htOk (deleteRec v? k n).1 = true ∧ balancedB (deleteRec v? k n).1 = true ∧
    realHeight (deleteRec v? k n).1 ≤ realHeight n ∧
    realHeight n ≤ realHeight (deleteRec v? k n).1 + 1 := by
  intro N
  induction N with
  | zero =>
    intro v? k n hN ho hb
    cases n with
    | nil => simp [deleteRec, htOk, balancedB, realHeight]
    | node key val h l r => simp [numNodes] at hN
  | succ N ih =>
    intro v? k n hN ho hb
    cases n with
    | nil => simp [deleteRec, htOk, balancedB, realHeight]
    | node key val h l r =>
      rw [htOk_node] at ho
      rw [balancedB_node] at hb
      obtain ⟨hEq, hlo, hro⟩ := ho
      obtain ⟨hb1, hb2, hlb, hrb⟩ := hb
      simp only [numNodes] at hN
      by_cases hk1 : k < key
      · obtain ⟨iho, ihb, ihg1, ihg2⟩ := ih v? k l (by omega) hlo hlb
        rw [deleteRec.eq_def]
        simp only [if_pos hk1]
        have hspec := rebalance_spec key val h (deleteRec v? k l).1 r iho ihb hro hrb
          (by omega) (by omega)
        obtain ⟨s1, s2, s3, s4, s5⟩ := hspec
        refine ⟨s1, s2, ?_, ?_⟩
        · rw [realHeight_node]; omega
        · rw [realHeight_node]
          by_cases hbal : realHeight (deleteRec v? k l).1 ≤ realHeight r + 1 ∧
              realHeight r ≤ realHeight (deleteRec v? k l).1 + 1
          · have := s5 hbal.1 hbal.2; omega
          · omega
      · by_cases hk2 : key < k
        · obtain ⟨iho, ihb, ihg1, ihg2⟩ := ih v? k r (by omega) hro hrb
          rw [deleteRec.eq_def]
          simp only [if_neg hk1, if_pos hk2]
          have hspec := rebalance_spec key val h l (deleteRec v? k r).1 hlo hlb iho ihb
            (by omega) (by omega)
          obtain ⟨s1, s2, s3, s4, s5⟩ := hspec
          refine ⟨s1, s2, ?_, ?_⟩
          · rw [realHeight_node]; omega
          · rw [realHeight_node]
            by_cases hbal : realHeight l ≤ realHeight (deleteRec v? k r).1 + 1 ∧
                realHeight (deleteRec v? k r).1 ≤ realHeight l + 1
            · have := s5 hbal.1 hbal.2; omega
            · omega
        · rw [deleteRec.eq_def]
          simp only [if_neg hk1, if_neg hk2]
          split
          · have hspec := fun v2 => rebalance_spec key v2 h l r hlo hlb hro hrb
              (by omega) (by omega)
            refine ⟨(hspec _).1, (hspec _).2.1, ?_, ?_⟩ <;> rw [realHeight_node]
            · rw [(hspec _).2.2.2.2 (by omega) (by omega)]
            · rw [(hspec _).2.2.2.2 (by omega) (by omega)]
              omega
          · split
            · exact ⟨rfl, rfl, by simp [realHeight], by simp [realHeight]⟩
            · refine ⟨hro, hrb, ?_, ?_⟩ <;>
                simp only [realHeight_node, realHeight_nil] <;> omega
            · refine ⟨hlo, hlb, ?_, ?_⟩ <;>
                simp only [realHeight_node, realHeight_nil] <;> omega
            · next lk lv lh ll lr rk rv rh rl rr =>
              dsimp only
              have hnum : numNodes (emptyMinValue (node rk rv rh rl rr)) ≤ N := by
                have hm : ∀ m : Node, numNodes (emptyMinValue m) = numNodes m := by
                  intro m
                  induction m with
                  | nil => rfl
                  | node mk2 mv2 mh2 ml2 mr2 ihl2 _ =>
                    cases ml2 with
                    | nil => rfl
                    | node a b c d e => simpa [emptyMinValue, numNodes] using ihl2
                rw [hm]
                simp only [numNodes] at hN ⊢
                omega
              obtain ⟨iho, ihb, ihg1, ihg2⟩ :=
                ih v? (min_node (node rk rv rh rl rr)).1 (emptyMinValue (node rk rv rh rl rr))
                  hnum
                  (by rw [emptyMinValue_htOk]; exact hro)
                  (by rw [emptyMinValue_balancedB]; exact hrb)
              rw [emptyMinValue_realHeight] at ihg1 ihg2
              have hspec := rebalance_spec (min_node (node rk rv rh rl rr)).1
                (min_node (node rk rv rh rl rr)).2 h (node lk lv lh ll lr)
                (deleteRec v? (min_node (node rk rv rh rl rr)).1
                  (emptyMinValue (node rk rv rh rl rr))).1
                hlo hlb iho ihb (by omega) (by omega)
              obtain ⟨s1, s2, s3, s4, s5⟩ := hspec
              refine ⟨s1, s2, ?_, ?_⟩
              · rw [realHeight_node]; omega
              · rw [realHeight_node]
                by_cases hbal : realHeight (node lk lv lh ll lr) ≤
                    realHeight (deleteRec v? (min_node (node rk rv rh rl rr)).1
                      (emptyMinValue (node rk rv rh rl rr))).1 + 1 ∧
                    realHeight (deleteRec v? (min_node (node rk rv rh rl rr)).1
                      (emptyMinValue (node rk rv rh rl rr))).1 ≤
                      realHeight (node lk lv lh ll lr) + 1
                · have := s5 hbal.1 hbal.2; omega
                · omega


end Node

namespace Node

theorem numNodes_emptyMinValue : ∀ n : Node, numNodes (emptyMinValue n) = numNodes n := by
  intro n
  induction n with
  | nil => rfl
  | node k v h l r ihl _ =>
    cases l with
    | nil => rfl
    | node lk lv lh ll lr => simpa [emptyMinValue, numNodes] using ihl

theorem numNodes_rotate_left : ∀ n : Node, numNodes (rotate_left n) = numNodes n := by
  intro n
  match n with
  | nil => rfl
  | node k v h l nil => rfl
  | node k v h l (node rk rv rh rl rr) => simp [rotate_left, numNodes]; omega

theorem numNodes_rotate_right : ∀ n : Node, numNodes (rotate_right n) = numNodes n := by
  intro n
  match n with
  | nil => rfl
  | node k v h nil r => rfl
  | node k v h (node lk lv lh ll lr) r => simp [rotate_right, numNodes]; omega

theorem numNodes_rebalance : ∀ n : Node, numNodes (rebalance n) = numNodes n := by
  intro n
  cases n with
  | nil => rfl
  | node k v h l r =>
    simp only [rebalance]
    split_ifs <;>
      simp [numNodes_rotate_left, numNodes_rotate_right, numNodes]

theorem insertRec_numNodes (k v : Int) : ∀ n : Node,
    numNodes (insertRec k v n).1 = numNodes n + (if (insertRec k v n).2 then 1 else 0) := by
  intro n
  induction n with
  | nil => simp [insertRec, numNodes]
  | node key val h l r ihl ihr =>
    by_cases hk1 : k < key
    · simp only [insertRec, if_pos hk1]
      rw [numNodes_rebalance]
      simp only [numNodes]
      cases hc : (insertRec k v l).2 <;> simp [hc] at ihl ⊢ <;> omega
    · by_cases hk2 : key < k
      · simp only [insertRec, if_neg hk1, if_pos hk2]
        rw [numNodes_rebalance]
        simp only [numNodes]
        cases hc : (insertRec k v r).2 <;> simp [hc] at ihr ⊢ <;> omega
      · simp [insertRec, if_neg hk1, if_neg hk2, numNodes]

theorem deleteRec_numNodes : ∀ (N : Nat) (v? : Option Int) (k : Int) (n : Node),
    numNodes n ≤ N →
    numNodes (deleteRec v? k n).1 + (deleteRec v? k n).2 = numNodes n := by
  intro N
  induction N with
  | zero =>
    intro v? k n hN
    cases n with
    | nil => simp [deleteRec, numNodes]
    | node key val h l r => simp [numNodes] at hN
  | succ N ih =>
    intro v? k n hN
    cases n with
    | nil => simp [deleteRec, numNodes]
    | node key val h l r =>
      simp only [numNodes] at hN
      by_cases hk1 : k < key
      · have ihl := ih v? k l (by omega)
        rw [deleteRec.eq_def]
        simp only [if_pos hk1]
        rw [numNodes_rebalance]
        simp only [numNodes]
        omega
      · by_cases hk2 : key < k
        · have ihr := ih v? k r (by omega)
          rw [deleteRec.eq_def]
          simp only [if_neg hk1, if_pos hk2]
          rw [numNodes_rebalance]
          simp only [numNodes]
          omega
        · rw [deleteRec.eq_def]
          simp only [if_neg hk1, if_neg hk2]
          split
          · rw [numNodes_rebalance]
            simp [numNodes]
          · split
            · simp [numNodes]
            · simp [numNodes]; omega
            · simp [numNodes]; omega
            · next lk lv lh ll lr rk rv rh rl rr =>
              have ihr := ih v? (min_node (node rk rv rh rl rr)).1
                (emptyMinValue (node rk rv rh rl rr))
                (by rw [numNodes_emptyMinValue]; simp only [numNodes] at hN ⊢; omega)
              rw [numNodes_rebalance]
              rw [numNodes_emptyMinValue] at ihr
              simp only [numNodes] at ihr ⊢
              omega

end Node

/-- `add` preserves correct cached heights and AVL balance. -/
theorem add_wf (t : AVLTree) (k v : Int)
    (ho : Node.htOk t.root = true) (hb : Node.balancedB t.root = true) :
    Node.htOk (t.add k v).root = true ∧ Node.balancedB (t.add k v).root = true := by
  cases hr : t.root with
  | nil => simp [AVLTree.add, hr, Node.htOk, Node.balancedB, Node.realHeight]
  | node key val h l r =>
    rw [hr] at ho hb
    have hw := Node.insertRec_wf k v (Node.node key val h l r) ho hb
    simp only [AVLTree.add, hr]
    exact ⟨hw.1, hw.2.1⟩

/-- `delete` preserves correct cached heights and AVL balance. -/
theorem delete_wf (t : AVLTree) (k : Int) (v? : Option Int)
    (ho : Node.htOk t.root = true) (hb : Node.balancedB t.root = true) :
    Node.htOk (t.delete k v?).root = true ∧ Node.balancedB (t.delete k v?).root = true := by
  cases hr : t.root with
  | nil =>
    simp only [AVLTree.delete, hr]
    rw [hr] at ho hb
    exact ⟨ho, hb⟩
  | node key val h l r =>
    rw [hr] at ho hb
    have hw := Node.deleteRec_wf (Node.numNodes (Node.node key val h l r)) v? k
      (Node.node key val h l r) (le_refl _) ho hb
    simp only [AVLTree.delete, hr]
    exact ⟨hw.1, hw.2.1⟩

theorem foldl_ops_wf : ∀ (ops : List Op) (t : AVLTree),
    Node.htOk t.root = true → Node.balancedB t.root = true →
    Node.htOk (ops.foldl (fun t op => match op with
      | Op.addOp k v => t.add k v
      | Op.delOp k v? => t.delete k v?) t).root = true ∧
    Node.balancedB (ops.foldl (fun t op => match op with
      | Op.addOp k v => t.add k v
      | Op.delOp k v? => t.delete k v?) t).root = true := by
  intro ops
  induction ops with
  | nil => intro t ho hb; exact ⟨ho, hb⟩
  | cons op rest ih =>
    intro t ho hb
    simp only [List.foldl_cons]
    cases op with
    | addOp k v => exact ih _ (add_wf t k v ho hb).1 (add_wf t k v ho hb).2
    | delOp k v? => exact ih _ (delete_wf t k v? ho hb).1 (delete_wf t k v? ho hb).2


namespace Node

theorem insertRec_found (k v : Int) : ∀ (n : Node) (vs : List Int),
    findVals n k = some vs → (insertRec k v n).2 = false := by
  intro n
  induction n with
  | nil => intro vs hf; simp [findVals] at hf
  | node key val h l r ihl ihr =>
    intro vs hf
    by_cases hk1 : k < key
    · simp only [findVals, if_pos hk1] at hf
      simp only [insertRec, if_pos hk1]
      exact ihl vs hf
    · by_cases hk2 : key < k
      · simp only [findVals, if_neg hk1, if_pos hk2] at hf
        simp only [insertRec, if_neg hk1, if_pos hk2]
        exact ihr vs hf
      · simp [insertRec, if_neg hk1, if_neg hk2]

theorem deleteRec_found_keep (k v : Int) : ∀ (n : Node) (vs : List Int),
    findVals n k = some vs → v ∈ vs → vs.erase v ≠ [] →
    (deleteRec (some v) k n).2 = 0 := by
  intro n
  induction n with
  | nil => intro vs hf; simp [findVals] at hf
  | node key val h l r ihl ihr =>
    intro vs hf hv he
    by_cases hk1 : k < key
    · simp only [findVals, if_pos hk1] at hf
      rw [deleteRec.eq_def]
      simp only [if_pos hk1]
      exact ihl vs hf hv he
    · by_cases hk2 : key < k
      · simp only [findVals, if_neg hk1, if_pos hk2] at hf
        rw [deleteRec.eq_def]
        simp only [if_neg hk1, if_pos hk2]
        exact ihr vs hf hv he
      · simp only [findVals, if_neg hk1, if_neg hk2, Option.some.injEq] at hf
        subst hf
        rw [deleteRec.eq_def]
        simp [if_neg hk1, if_neg hk2, hv, he]

theorem rebalance_eq_self {k : Int} {v : List Int} {h : Nat} {l r : Node}
    (ho : htOk (node k v h l r) = true)
    (hb1 : realHeight l ≤ realHeight r + 1) (hb2 : realHeight r ≤ realHeight l + 1) :
    rebalance (node k v h l r) = node k v h l r := by
  rw [htOk_node] at ho
  obtain ⟨hEq, hlo, hro⟩ := ho
  simp only [rebalance, ht_eq_real hlo, ht_eq_real hro]
  rw [if_neg (by omega), if_neg (by omega), hEq]

theorem deleteRec_absent (v? : Option Int) (k : Int) : ∀ n : Node,
    htOk n = true → balancedB n = true → findVals n k = none →
    deleteRec v? k n = (n, 0) := by
  intro n
  induction n with
  | nil => intro _ _ _; simp [deleteRec]
  | node key val h l r ihl ihr =>
    intro ho hb hf
    have ho' := ho
    have hb' := hb
    rw [htOk_node] at ho
    rw [balancedB_node] at hb
    by_cases hk1 : k < key
    · simp only [findVals, if_pos hk1] at hf
      rw [deleteRec.eq_def]
      simp only [if_pos hk1]
      rw [ihl ho.2.1 hb.2.2.1 hf]
      dsimp only
      rw [rebalance_eq_self ho' hb.1 hb.2.1]
    · by_cases hk2 : key < k
      · simp only [findVals, if_neg hk1, if_pos hk2] at hf
        rw [deleteRec.eq_def]
        simp only [if_neg hk1, if_pos hk2]
        rw [ihr ho.2.2 hb.2.2.2 hf]
        dsimp only
        rw [rebalance_eq_self ho' hb.1 hb.2.1]
      · simp [findVals, if_neg hk1, if_neg hk2] at hf

theorem appendAt_realHeight (k v : Int) : ∀ n : Node,
    realHeight (appendAt k v n) = realHeight n := by
  intro n
  induction n with
  | nil => rfl
  | node key val h l r ihl ihr =>
    by_cases hk1 : k < key
    · simp [appendAt, if_pos hk1, realHeight_node, ihl]
    · by_cases hk2 : key < k
      · simp [appendAt, if_neg hk1, if_pos hk2, realHeight_node, ihr]
      · simp [appendAt, if_neg hk1, if_neg hk2, realHeight_node]

theorem appendAt_htOk (k v : Int) : ∀ n : Node, htOk (appendAt k v n) = htOk n := by
  intro n
  induction n with
  | nil => rfl
  | node key val h l r ihl ihr =>
    by_cases hk1 : k < key
    · simp [appendAt, if_pos hk1, htOk, appendAt_realHeight, ihl]
    · by_cases hk2 : key < k
      · simp [appendAt, if_neg hk1, if_pos hk2, htOk, appendAt_realHeight, ihr]
      · simp [appendAt, if_neg hk1, if_neg hk2, htOk]

theorem appendAt_numNodes (k v : Int) : ∀ n : Node,
    numNodes (appendAt k v n) = numNodes n := by
  intro n
  induction n with
  | nil => rfl
  | node key val h l r ihl ihr =>
    by_cases hk1 : k < key
    · simp [appendAt, if_pos hk1, numNodes, ihl]
    · by_cases hk2 : key < k
      · simp [appendAt, if_neg hk1, if_pos hk2, numNodes, ihr]
      · simp [appendAt, if_neg hk1, if_neg hk2, numNodes]

theorem appendAt_findVals_eq (k v : Int) : ∀ (n : Node) (vs : List Int),
    findVals n k = some vs → findVals (appendAt k v n) k = some (vs ++ [v]) := by
  intro n
  induction n with
  | nil => intro vs hf; simp [findVals] at hf
  | node key val h l r ihl ihr =>
    intro vs hf
    by_cases hk1 : k < key
    · simp only [findVals, if_pos hk1] at hf
      simp only [appendAt, if_pos hk1, findVals]
      exact ihl vs hf
    · by_cases hk2 : key < k
      · simp only [findVals, if_neg hk1, if_pos hk2] at hf
        simp only [appendAt, if_neg hk1, if_pos hk2, findVals]
        exact ihr vs hf
      · simp only [findVals, if_neg hk1, if_neg hk2, Option.some.injEq] at hf
        subst hf
        simp [appendAt, findVals, if_neg hk1, if_neg hk2]

theorem appendAt_findVals_ne (k v k' : Int) (hne : k' ≠ k) : ∀ n : Node,
    findVals (appendAt k v n) k' = findVals n k' := by
  intro n
  induction n with
  | nil => rfl
  | node key val h l r ihl ihr =>
    by_cases hk1 : k < key
    · simp only [appendAt, if_pos hk1]
      by_cases hk1' : k' < key
      · simp only [findVals, if_pos hk1']
        exact ihl
      · by_cases hk2' : key < k'
        · simp only [findVals, if_neg hk1', if_pos hk2']
        · simp only [findVals, if_neg hk1', if_neg hk2']
    · by_cases hk2 : key < k
      · simp only [appendAt, if_neg hk1, if_pos hk2]
        by_cases hk1' : k' < key
        · simp only [findVals, if_pos hk1']
        · by_cases hk2' : key < k'
          · simp only [findVals, if_neg hk1', if_pos hk2']
            exact ihr
          · simp only [findVals, if_neg hk1', if_neg hk2']
      · have hkeq : k = key := by omega
        subst hkeq
        simp only [appendAt, if_neg hk1, if_neg hk2]
        by_cases hk1' : k' < k
        · simp only [findVals, if_pos hk1']
        · by_cases hk2' : k < k'
          · simp only [findVals, if_neg hk1', if_pos hk2']
          · omega

theorem insertRec_found_eq (k v : Int) : ∀ (n : Node),
    htOk n = true → balancedB n = true → (findVals n k).isSome →
    insertRec k v n = (appendAt k v n, false) := by
  intro n
  induction n with
  | nil => intro _ _ hf; simp [findVals] at hf
  | node key val h l r ihl ihr =>
    intro ho hb hf
    have ho' := ho
    have hb' := hb
    rw [htOk_node] at ho
    rw [balancedB_node] at hb
    by_cases hk1 : k < key
    · simp only [findVals, if_pos hk1] at hf
      simp only [insertRec, if_pos hk1, appendAt]
      rw [ihl ho.2.1 hb.2.2.1 hf]
      dsimp only
      have hoA : htOk (node key val h (appendAt k v l) r) = true := by
        rw [htOk_node]
        rw [appendAt_realHeight, appendAt_htOk]
        exact ⟨ho.1, ho.2.1, ho.2.2⟩
      rw [rebalance_eq_self hoA (by rw [appendAt_realHeight]; exact hb.1)
        (by rw [appendAt_realHeight]; exact hb.2.1)]
    · by_cases hk2 : key < k
      · simp only [findVals, if_neg hk1, if_pos hk2] at hf
        simp only [insertRec, if_neg hk1, if_pos hk2, appendAt]
        rw [ihr ho.2.2 hb.2.2.2 hf]
        dsimp only
        have hoA : htOk (node key val h l (appendAt k v r)) = true := by
          rw [htOk_node]
          rw [appendAt_realHeight, appendAt_htOk]
          exact ⟨ho.1, ho.2.1, ho.2.2⟩
        rw [rebalance_eq_self hoA (by rw [appendAt_realHeight]; exact hb.1)
          (by rw [appendAt_realHeight]; exact hb.2.1)]
      · simp [insertRec, appendAt, if_neg hk1, if_neg hk2]

end Node

/-! ## Claim theorems -/

/-- Claim C1 (code bug): on the store holding user 1 (age 30, indexed, with a
graph edge), `delete_user(1)` returns `True` and removes the record from the
primary map and the node from the graph, but the age index still holds the
entry `30 → [1]`: `AVLTree` has no `delete_record_id` method, and the
resulting `AttributeError` is caught and ignored, so the index removal never
happens even though `True` is returned. -/
theorem delete_user_returns_true_but_index_stale :
    (c1Store.delete_user 1).2 = true ∧
    alistLookup (c1Store.delete_user 1).1.hash_map 1 = none ∧
    (c1Store.delete_user 1).1.social_graph.friends = [] ∧
    (∀ p ∈ (c1Store.delete_user 1).1.social_graph.followers, (1 : Int) ∉ p.2) ∧
    Node.findVals (c1Store.delete_user 1).1.age_index.root 30 = some [1] := by
  decide

/-- Claim C4 (code bug): on the store holding user 1 (age 30, indexed),
`modify_user(1, {age: 31})` raises `AttributeError` (`AVLTree` has `add`, not
`insert`); at that point the record's age has already been mutated to 31 in
the primary map while the age index still holds `30 → [1]` and has no entry
for 31 — no relocation happens.  The not-found half of the claim does hold:
for an absent id `modify_user` returns `False` and changes nothing. -/
theorem modify_user_raises_attribute_error :
    ((c1Store.modify_user 1 { age := some (some 31) }).2 =
        Except.error PyErr.attributeError ∧
      (alistLookup (c1Store.modify_user 1 { age := some (some 31) }).1.hash_map 1).map
        Record.age = some (some 31) ∧
      Node.findVals (c1Store.modify_user 1 { age := some (some 31) }).1.age_index.root 30 =
        some [1] ∧
      Node.findVals (c1Store.modify_user 1 { age := some (some 31) }).1.age_index.root 31 =
        none) ∧
    (∀ (s : Storage) (uid : Int) (upd : Updates),
      alistLookup s.hash_map uid = none → s.modify_user uid upd = (s, Except.ok false)) := by
  refine ⟨by decide, ?_⟩
  intro s uid upd h
  simp [Storage.modify_user, h]

/-- Witness for the hypothesis of `modify_user_raises_attribute_error`: user 99
is absent from `c1Store`, so `modify_user` returns `False` and changes
nothing. -/
theorem modify_user_raises_attribute_error_witness :
    c1Store.modify_user 99 {} = (c1Store, Except.ok false) :=
  modify_user_raises_attribute_error.2 c1Store 99 {} (by decide)

/-- Claim C6 counterexample: re-inserting the pair (5, 1) into the tree that
already stores it is *not* a no-op — `add` appends unconditionally, so the
value list of key 5 becomes `[1, 1]`. -/
theorem add_duplicate_pair_not_noop :
    (AVLTree.empty.add 5 1).add 5 1 ≠ AVLTree.empty.add 5 1 ∧
    Node.findVals ((AVLTree.empty.add 5 1).add 5 1).root 5 = some [1, 1] := by
  decide

/-- Claim C8 counterexample: with `a = b = 5` unknown to the empty graph the
claim demands not-found, but `shortest_path` tests `start == end` *before* the
membership check and returns `[5]`. -/
theorem shortest_path_unknown_equal_endpoints :
    (5 : Int) ∉ Graph.empty.nodes ∧ Graph.empty.shortest_path 5 5 = some [5] := by
  decide

/-- Claim C8 amended: for `a ≠ b` with either endpoint unknown,
`shortest_path` returns not-found; for `a = b` it returns `[a]` whether or not
`a` is a known node. -/
theorem shortest_path_unknown_endpoint_none (g : Graph) (a b : Int) :
    (a = b → g.shortest_path a b = some [a]) ∧
    (a ≠ b → a ∉ g.nodes ∨ b ∉ g.nodes → g.shortest_path a b = none) := by
  constructor
  · intro h; simp [Graph.shortest_path, h]
  · intro h hn; simp [Graph.shortest_path, h, hn]

/-- Witness for `shortest_path_unknown_endpoint_none`: nodes 5 and 7 are
unknown to the empty graph and `shortest_path 5 7` is not-found. -/
theorem shortest_path_unknown_endpoint_none_witness :
    Graph.empty.shortest_path 5 7 = none :=
  (shortest_path_unknown_endpoint_none Graph.empty 5 7).2 (by decide)
    (Or.inl (by decide))

/-- Claim C9 counterexample: after removing node 1 from the graph with edge
1→2, a second `remove_node 1` does *not* return `False` — `remove_node` is
annotated `-> None` and returns `None` on every path. -/
theorem remove_node_second_call_not_false :
    (((Graph.empty.add_edge 1 2).remove_node 1).1.remove_node 1).2 ≠ some false := by
  decide

/-- The node set after `remove_node uid` never contains `uid`. -/
theorem remove_node_not_mem (g : Graph) (uid : Int) :
    uid ∉ ((g.remove_node uid).1).nodes := by
  by_cases h : uid ∉ g.nodes
  · simp only [Graph.remove_node, if_pos h]
    exact h
  · simp only [Graph.remove_node, if_neg h]
    exact Finset.not_mem_erase _ _

/-- Claim C9 amended: calling `remove_node` twice in immediate succession
yields the same graph as calling it once; the second call is a no-op whose
return value is `None` (not `False`). -/
theorem remove_node_idempotent (g : Graph) (uid : Int) :
    ((g.remove_node uid).1.remove_node uid) = ((g.remove_node uid).1, none) := by
  have h := remove_node_not_mem g uid
  generalize hg : (g.remove_node uid).1 = g1 at h ⊢
  simp only [Graph.remove_node, if_pos h]

end Pokec

namespace Pokec

theorem add_size (t : AVLTree) (k v : Int) (hs : t.size = (Node.numNodes t.root : Int)) :
    (t.add k v).size = (Node.numNodes (t.add k v).root : Int) := by
  cases hr : t.root with
  | nil =>
    rw [hr] at hs
    simp only [AVLTree.add, hr]
    simp [Node.numNodes] at hs ⊢
    omega
  | node key val h l r =>
    rw [hr] at hs
    simp only [AVLTree.add, hr]
    have hn := Node.insertRec_numNodes k v (Node.node key val h l r)
    cases hc : (Node.insertRec k v (Node.node key val h l r)).2 <;>
      simp [hc] at hn ⊢ <;> omega

theorem delete_size (t : AVLTree) (k : Int) (v? : Option Int)
    (hs : t.size = (Node.numNodes t.root : Int)) :
    (t.delete k v?).size = (Node.numNodes (t.delete k v?).root : Int) := by
  cases hr : t.root with
  | nil => simp only [AVLTree.delete, hr]; rw [hs, hr]
  | node key val h l r =>
    rw [hr] at hs
    simp only [AVLTree.delete, hr]
    have hn := Node.deleteRec_numNodes (Node.numNodes (Node.node key val h l r)) v? k
      (Node.node key val h l r) (le_refl _)
    omega

theorem foldl_ops_size : ∀ (ops : List Op) (t : AVLTree),
    t.size = (Node.numNodes t.root : Int) →
    (ops.foldl (fun t op => match op with
      | Op.addOp k v => t.add k v
      | Op.delOp k v? => t.delete k v?) t).size =
      (Node.numNodes (ops.foldl (fun t op => match op with
        | Op.addOp k v => t.add k v
        | Op.delOp k v? => t.delete k v?) t).root : Int) := by
  intro ops
  induction ops with
  | nil => intro t hs; exact hs
  | cons op rest ih =>
    intro t hs
    simp only [List.foldl_cons]
    cases op with
    | addOp k v => exact ih _ (add_size t k v hs)
    | delOp k v? => exact ih _ (delete_size t k v? hs)

/-- Claim C3: for every sequence of `add`/`delete` operations on a fresh
`AVLTree`, after each operation every node satisfies
|height(left) − height(right)| ≤ 1 and every cached height equals the true
subtree height (every prefix of a sequence is itself a sequence, so
quantifying over all sequences covers "after each operation"). -/
theorem avl_balance_invariant (ops : List Op) :
    Node.htOk (applyOps ops).root = true ∧ Node.balancedB (applyOps ops).root = true :=
  foldl_ops_wf ops AVLTree.empty rfl rfl

/-- Claim C10: the AVL tree's `size` field equals the number of tree nodes
(distinct keys) after every `add`/`delete` sequence; an `add` for an
already-present key leaves `size` unchanged, and a `delete` that only shrinks
a still-non-empty value list leaves `size` unchanged. -/
theorem avl_size_eq_numNodes :
    (∀ ops : List Op, (applyOps ops).size = (Node.numNodes (applyOps ops).root : Int)) ∧
    (∀ (t : AVLTree) (k v : Int) (vs : List Int),
      Node.findVals t.root k = some vs → (t.add k v).size = t.size) ∧
    (∀ (t : AVLTree) (k v : Int) (vs : List Int),
      Node.findVals t.root k = some vs → v ∈ vs → vs.erase v ≠ [] →
      (t.delete k (some v)).size = t.size) := by
  refine ⟨fun ops => foldl_ops_size ops AVLTree.empty rfl, ?_, ?_⟩
  · intro t k v vs hf
    cases hr : t.root with
    | nil => rw [hr] at hf; simp [Node.findVals] at hf
    | node key val h l r =>
      rw [hr] at hf
      simp only [AVLTree.add, hr]
      rw [Node.insertRec_found k v _ vs hf]
      simp
  · intro t k v vs hf hv he
    cases hr : t.root with
    | nil => rw [hr] at hf; simp [Node.findVals] at hf
    | node key val h l r =>
      rw [hr] at hf
      simp only [AVLTree.delete, hr]
      rw [Node.deleteRec_found_keep k v _ vs hf hv he]
      simp

/-- Witness for `avl_size_eq_numNodes`: re-adding key 5 (value 2) to the tree
storing 5 → [1] keeps `size = 1`, and deleting value 1 from the resulting
two-value list also keeps `size = 1`. -/
theorem avl_size_eq_numNodes_witness :
    ((AVLTree.empty.add 5 1).add 5 2).size = (AVLTree.empty.add 5 1).size ∧
    (((AVLTree.empty.add 5 1).add 5 2).delete 5 (some 1)).size =
      ((AVLTree.empty.add 5 1).add 5 2).size :=
  ⟨avl_size_eq_numNodes.2.1 (AVLTree.empty.add 5 1) 5 2 [1] (by decide),
   avl_size_eq_numNodes.2.2 ((AVLTree.empty.add 5 1).add 5 2) 5 1 [1, 2]
     (by decide) (by decide) (by decide)⟩

/-- Claim C5 (code bug): `delete(5, 2)` on the tree whose only node stores
5 → [1] — id 2 is *not* under key 5 — does not signal not-found and leave the
tree unchanged: the membership test fails and control falls through to the
structural deletion, destroying the node and losing id 1 (`root` becomes
`None`, `size` 0).  The key-absent half of the claim does hold: deleting a key
that is not in a well-formed tree returns the tree unchanged (and `delete`
returns `None` in every case, so there is no not-found signal either way). -/
theorem delete_missing_value_destroys_node :
    (((AVLTree.empty.add 5 1).delete 5 (some 2)).root = Node.nil ∧
      ((AVLTree.empty.add 5 1).delete 5 (some 2)).size = 0) ∧
    (∀ (t : AVLTree) (k : Int) (v? : Option Int),
      Node.htOk t.root = true → Node.balancedB t.root = true →
      Node.findVals t.root k = none → t.delete k v? = t) := by
  constructor
  · constructor <;>
      simp [AVLTree.add, AVLTree.empty, AVLTree.delete, Node.insertRec, Node.deleteRec]
  · intro t k v? ho hb hf
    cases hr : t.root with
    | nil =>
      obtain ⟨root, size⟩ := t
      simp only at hr
      subst hr
      simp [AVLTree.delete]
    | node key val h l r =>
      rw [hr] at ho hb hf
      obtain ⟨root, size⟩ := t
      simp only at hr
      subst hr
      have hd := Node.deleteRec_absent v? k (Node.node key val h l r) ho hb hf
      simp only [AVLTree.delete, hd]
      simp

/-- Witness for the hypotheses of `delete_missing_value_destroys_node`: key 7
is absent from the well-formed tree storing only key 5, and `delete(7)`
returns the tree unchanged. -/
theorem delete_missing_value_destroys_node_witness :
    (AVLTree.empty.add 5 1).delete 7 none = AVLTree.empty.add 5 1 :=
  delete_missing_value_destroys_node.2 (AVLTree.empty.add 5 1) 7 none
    (by decide) (by decide) (by decide)

/-- Claim C6 amended: `add(key, id)` on a well-formed tree already holding
`key` (with value list `vs`) only appends `id` to that list — even when `id`
is already present, so a duplicate insertion yields `vs ++ [id]`, not a no-op.
The node structure, true heights, correct cached heights, `size`, and every
other key's value list are unchanged. -/
theorem add_existing_key_appends (t : AVLTree) (k v : Int) (vs : List Int)
    (ho : Node.htOk t.root = true) (hb : Node.balancedB t.root = true)
    (hf : Node.findVals t.root k = some vs) :
    t.add k v = ⟨Node.appendAt k v t.root, t.size⟩ ∧
    Node.findVals (Node.appendAt k v t.root) k = some (vs ++ [v]) ∧
    (∀ k', k' ≠ k → Node.findVals (Node.appendAt k v t.root) k' = Node.findVals t.root k') ∧
    Node.realHeight (Node.appendAt k v t.root) = Node.realHeight t.root ∧
    Node.numNodes (Node.appendAt k v t.root) = Node.numNodes t.root ∧
    Node.htOk (Node.appendAt k v t.root) = true := by
  refine ⟨?_, Node.appendAt_findVals_eq k v t.root vs hf,
    fun k' hne => Node.appendAt_findVals_ne k v k' hne t.root,
    Node.appendAt_realHeight k v t.root, Node.appendAt_numNodes k v t.root,
    by rw [Node.appendAt_htOk]; exact ho⟩
  cases hr : t.root with
  | nil => rw [hr] at hf; simp [Node.findVals] at hf
  | node key val h l r =>
    rw [hr] at ho hb hf
    obtain ⟨root, size⟩ := t
    simp only at hr
    subst hr
    have he := Node.insertRec_found_eq k v (Node.node key val h l r) ho hb (by rw [hf]; rfl)
    simp [AVLTree.add, he]

/-- Witness for `add_existing_key_appends`: adding (5, 2) to the tree storing
5 → [1] appends in place. -/
theorem add_existing_key_appends_witness :
    (AVLTree.empty.add 5 1).add 5 2 =
      ⟨Node.appendAt 5 2 (AVLTree.empty.add 5 1).root, (AVLTree.empty.add 5 1).size⟩ :=
  (add_existing_key_appends (AVLTree.empty.add 5 1) 5 2 [1]
    (by decide) (by decide) (by decide)).1

end Pokec

namespace Pokec
namespace Node

theorem allKeys_node {p : Int → Bool} {k : Int} {v : List Int} {h : Nat} {l r : Node} :
    allKeys p (node k v h l r) = true ↔
      p k = true ∧ allKeys p l = true ∧ allKeys p r = true := by
  simp [allKeys, and_assoc]

theorem ordered_node {k : Int} {v : List Int} {h : Nat} {l r : Node} :
    ordered (node k v h l r) = true ↔
      allKeys (fun x => decide (x < k)) l = true ∧
      allKeys (fun x => decide (k < x)) r = true ∧
      ordered l = true ∧ ordered r = true := by
  simp [ordered, and_assoc]

theorem allKeys_contents (p : Int → Bool) : ∀ n : Node, allKeys p n = true →
    ∀ q ∈ contents n, p q.1 = true := by
  intro n
  induction n with
  | nil => intro _ q hq; simp [contents] at hq
  | node k v h l r ihl ihr =>
    intro ha q hq
    rw [allKeys_node] at ha
    simp only [contents, List.mem_append] at hq
    by_cases h1 : q ∈ contents l
    · exact ihl ha.2.1 q h1
    · by_cases h2 : q ∈ contents r
      · exact ihr ha.2.2 q h2
      · have hm : q ∈ v.map (fun id => (k, id)) := by tauto
        obtain ⟨x, _, rfl⟩ := List.mem_map.1 hm
        exact ha.1

theorem rangeSearchAux_eq (mn mx : Int) : ∀ n : Node, ordered n = true →
    rangeSearchAux mn mx n =
      ((contents n).filter (fun q => decide (mn ≤ q.1) && decide (q.1 ≤ mx))).map
        Prod.snd := by
  intro n
  induction n with
  | nil => intro _; rfl
  | node key val h l r ihl ihr =>
    intro ho
    rw [ordered_node] at ho
    obtain ⟨hkl, hkr, hol, hor⟩ := ho
    have hA : (if key > mn then rangeSearchAux mn mx l else []) =
        ((contents l).filter (fun q => decide (mn ≤ q.1) && decide (q.1 ≤ mx))).map
          Prod.snd := by
      by_cases hc : key > mn
      · rw [if_pos hc]; exact ihl hol
      · rw [if_neg hc]
        have hnil : (contents l).filter
            (fun q => decide (mn ≤ q.1) && decide (q.1 ≤ mx)) = [] := by
          rw [List.filter_eq_nil_iff]
          intro q hq
          have hlt := allKeys_contents _ l hkl q hq
          simp at hlt ⊢
          omega
        rw [hnil]; rfl
    have hB : (if mn ≤ key ∧ key ≤ mx then val else []) =
        ((val.map (fun id => (key, id))).filter
          (fun q => decide (mn ≤ q.1) && decide (q.1 ≤ mx))).map Prod.snd := by
      by_cases hc : mn ≤ key ∧ key ≤ mx
      · rw [if_pos hc]
        have hsel : (val.map (fun id => (key, id))).filter
            (fun q => decide (mn ≤ q.1) && decide (q.1 ≤ mx)) =
            val.map (fun id => (key, id)) := by
          rw [List.filter_eq_self]
          intro a ha
          obtain ⟨x, _, rfl⟩ := List.mem_map.1 ha
          simp [hc.1, hc.2]
        rw [hsel, List.map_map]
        simp
      · rw [if_neg hc]
        have hnil : (val.map (fun id => (key, id))).filter
            (fun q => decide (mn ≤ q.1) && decide (q.1 ≤ mx)) = [] := by
          rw [List.filter_eq_nil_iff]
          intro q hq
          obtain ⟨x, _, rfl⟩ := List.mem_map.1 hq
          simp
          omega
        rw [hnil]; rfl
    have hC : (if key < mx then rangeSearchAux mn mx r else []) =
        ((contents r).filter (fun q => decide (mn ≤ q.1) && decide (q.1 ≤ mx))).map
          Prod.snd := by
      by_cases hc : key < mx
      · rw [if_pos hc]; exact ihr hor
      · rw [if_neg hc]
        have hnil : (contents r).filter
            (fun q => decide (mn ≤ q.1) && decide (q.1 ≤ mx)) = [] := by
          rw [List.filter_eq_nil_iff]
          intro q hq
          have hgt := allKeys_contents _ r hkr q hq
          simp at hgt ⊢
          omega
        rw [hnil]; rfl
    simp only [rangeSearchAux, contents, List.filter_append, List.map_append]
    rw [hA, hB, hC]

theorem chain_le_const (c : Int) (m : List Int) :
    List.Chain' (· ≤ ·) (m.map fun _ => c) := by
  rw [List.chain'_map]
  induction m with
  | nil => exact List.chain'_nil
  | cons a m ih =>
    cases m with
    | nil => simp
    | cons b m' => exact ih.cons (le_refl c)

theorem contents_keys_sorted : ∀ n : Node, ordered n = true →
    List.Chain' (· ≤ ·) ((contents n).map Prod.fst) := by
  intro n
  induction n with
  | nil => intro _; simp [contents]
  | node k v h l r ihl ihr =>
    intro ho
    rw [ordered_node] at ho
    obtain ⟨hkl, hkr, hol, hor⟩ := ho
    simp only [contents, List.map_append, List.map_map]
    have hmid : (v.map (Prod.fst ∘ fun id => (k, id))) = v.map fun _ => k := by
      simp [Function.comp]
    rw [hmid]
    refine List.Chain'.append ?_ (ihr hor) ?_
    · refine List.Chain'.append (ihl hol) (chain_le_const k v) ?_
      intro x hx y hy
      have hx' := List.mem_of_mem_getLast? hx
      obtain ⟨q, hq, rfl⟩ := List.mem_map.1 hx'
      have hqk := allKeys_contents _ l hkl q hq
      have hy' := List.mem_of_mem_head? hy
      obtain ⟨y0, _, rfl⟩ := List.mem_map.1 hy'
      simp at hqk
      omega
    · intro x hx y hy
      have hx' := List.mem_of_mem_getLast? hx
      have hy' := List.mem_of_mem_head? hy
      obtain ⟨q2, hq2, rfl⟩ := List.mem_map.1 hy'
      have hq2k := allKeys_contents _ r hkr q2 hq2
      rw [List.mem_append] at hx'
      simp only [decide_eq_true_eq] at hq2k
      rcases hx' with hx' | hx'
      · obtain ⟨q, hq, rfl⟩ := List.mem_map.1 hx'
        have hqk := allKeys_contents _ l hkl q hq
        simp only [decide_eq_true_eq] at hqk
        omega
      · obtain ⟨x0, _, rfl⟩ := List.mem_map.1 hx'
        omega

end Node

/-- Claim C2 (code bug): `search_by_age_range` raises `AttributeError` on every
call — `AVLTree` defines `range_search`, not the `range_query` that
`Storage.search_by_age_range` invokes — while `linear_search_by_age_range`
returns the matching records.  The cited index algorithm itself is correct:
on every key-ordered tree, `range_search(mn, mx)` returns exactly the
identifiers whose key lies in `[mn, mx]`, in ascending key order (the tree's
in-order contents are key-sorted and `range_search` equals the in-order
filter). -/
theorem search_by_age_range_raises_but_range_search_correct :
    (c1Store.search_by_age_range 25 35 = Except.error PyErr.attributeError ∧
      c1Store.linear_search_by_age_range 25 35 = [{ user_id := 1, age := some 30 }]) ∧
    (∀ (t : AVLTree) (mn mx : Int), Node.ordered t.root = true →
      t.range_search mn mx =
        ((Node.contents t.root).filter
          (fun q => decide (mn ≤ q.1) && decide (q.1 ≤ mx))).map Prod.snd) ∧
    (∀ t : AVLTree, Node.ordered t.root = true →
      List.Chain' (· ≤ ·) ((Node.contents t.root).map Prod.fst)) := by
  refine ⟨⟨rfl, by decide⟩, ?_, ?_⟩
  · intro t mn mx ho
    exact Node.rangeSearchAux_eq mn mx t.root ho
  · intro t ho
    exact Node.contents_keys_sorted t.root ho

/-- Witness for `search_by_age_range_raises_but_range_search_correct`: the
tree holding 20 → [1] and 25 → [2] is ordered, and `range_search 10 22`
returns exactly `[1]`. -/
theorem search_by_age_range_raises_witness :
    ((AVLTree.empty.add 20 1).add 25 2).range_search 10 22 = [1] := by
  have h := search_by_age_range_raises_but_range_search_correct.2.1
    ((AVLTree.empty.add 20 1).add 25 2) 10 22 (by decide)
  simpa using h

end Pokec

namespace Pokec

theorem alistLookup_mem_values {α : Type} : ∀ (d : List (Int × α)) (k : Int) (v : α),
    alistLookup d k = some v → v ∈ d.map Prod.snd := by
  intro d
  induction d with
  | nil => intro k v h; simp [alistLookup] at h
  | cons e rest ih =>
    intro k v h
    obtain ⟨ek, ev⟩ := e
    simp only [alistLookup] at h
    by_cases hk : k = ek
    · rw [if_pos hk] at h
      simp at h
      simp [h]
    · rw [if_neg hk] at h
      simp
      exact Or.inr (by simpa using ih k v h)

theorem neighborsList_subset_support (g : Graph) (x w : Int)
    (hw : w ∈ g.neighborsList x) : w ∈ g.support := by
  unfold Graph.neighborsList at hw
  cases hl : alistLookup g.friends x with
  | none => rw [hl] at hw; simp at hw
  | some lst =>
    rw [hl] at hw
    simp only [Option.getD_some] at hw
    have hmem := alistLookup_mem_values g.friends x lst hl
    unfold Graph.support
    have : w ∈ (g.friends.map Prod.snd).flatten := List.mem_flatten.2 ⟨lst, hmem, hw⟩
    simp only [Finset.mem_union, List.mem_toFinset]
    exact Or.inr this

theorem head?_append_of_ne_nil {α : Type} (l l' : List α) (h : l ≠ []) :
    (l ++ l').head? = l.head? := by
  cases l with
  | nil => simp at h
  | cons x xs => simp

theorem walk_zero_inv {g : Graph} {a x : Int} (h : Walk g a x 0) : x = a := by
  cases h
  rfl

theorem walk_succ_inv {g : Graph} {a y : Int} {n : Nat} (h : Walk g a y (n + 1)) :
    ∃ x, Walk g a x n ∧ y ∈ g.neighborsList x := by
  cases h with
  | step hw he => exact ⟨_, hw, he⟩

theorem bfs_closed_no_walk (g : Graph) (a b : Int) (P : Finset Int)
    (haP : a ∈ P) (hab : a ≠ b)
    (hP : ∀ x ∈ P, ∀ w ∈ g.neighborsList x, w ≠ b ∧ w ∈ P) :
    ∀ (n : Nat) (x : Int), Walk g a x n → x ∈ P ∧ x ≠ b := by
  intro n x hw
  induction hw with
  | refl => exact ⟨haP, hab⟩
  | step hw he ih => exact ⟨(hP _ ih.1 _ he).2, (hP _ ih.1 _ he).1⟩

theorem bfsScan_spec (endU : Int) (path : List Int) :
    ∀ (ns : List Int) (visited : Finset Int) (queue : List (Int × List Int)),
    (match bfsScan endU path visited queue ns with
     | Sum.inl p => p = path ++ [endU] ∧ endU ∈ ns
     | Sum.inr vq =>
        endU ∉ ns ∧
        visited ⊆ vq.1 ∧ (∀ w ∈ ns, w ∈ vq.1) ∧
        (∃ newQ, vq.2 = queue ++ newQ ∧
          (∀ e ∈ newQ, e.2 = path ++ [e.1] ∧ e.1 ∈ ns ∧ e.1 ∉ visited) ∧
          vq.1 = visited ∪ (newQ.map Prod.fst).toFinset ∧
          vq.2.length + visited.card = queue.length + vq.1.card)) := by
  intro ns
  induction ns with
  | nil =>
    intro visited queue
    simp only [bfsScan]
    refine ⟨by simp, le_refl _, by simp, [], by simp, by simp, by simp, by simp⟩
  | cons n rest ih =>
    intro visited queue
    simp only [bfsScan]
    by_cases hn : n = endU
    · rw [if_pos hn]
      subst hn
      exact ⟨rfl, List.mem_cons_self n rest⟩
    · rw [if_neg hn]
      by_cases hv : n ∉ visited
      · rw [if_pos hv]
        have h := ih (insert n visited) (queue ++ [(n, path ++ [n])])
        cases hres : bfsScan endU path (insert n visited) (queue ++ [(n, path ++ [n])]) rest with
        | inl p =>
          rw [hres] at h
          exact ⟨h.1, List.mem_cons_of_mem n h.2⟩
        | inr vq =>
          rw [hres] at h
          obtain ⟨hend, hsub, hns, newQ, hq, hnew, hv', hcard⟩ := h
          refine ⟨?_, ?_, ?_, (n, path ++ [n]) :: newQ, ?_, ?_, ?_, ?_⟩
          · simp only [List.mem_cons]
            rintro (rfl | hmem)
            · exact hn rfl
            · exact hend hmem
          · exact fun x hx => hsub (Finset.mem_insert_of_mem hx)
          · intro w hw
            rcases List.mem_cons.1 hw with rfl | hw
            · exact hsub (Finset.mem_insert_self w visited)
            · exact hns w hw
          · rw [hq, List.append_cons, List.append_assoc]
            simp
          · intro e he
            rcases List.mem_cons.1 he with rfl | he
            · exact ⟨rfl, List.mem_cons_self _ _, hv⟩
            · obtain ⟨h1, h2, h3⟩ := hnew e he
              refine ⟨h1, List.mem_cons_of_mem _ h2, fun hc => h3 (Finset.mem_insert_of_mem hc)⟩
          · rw [hv']
            ext x
            simp only [Finset.mem_union, Finset.mem_insert, List.map_cons, List.mem_toFinset,
              List.mem_cons]
            tauto
          · rw [Finset.card_insert_of_not_mem hv] at hcard
            rw [hq] at hcard
            rw [hq]
            simp only [List.length_append, List.length_cons, List.length_nil] at hcard ⊢
            omega
      · rw [if_neg hv]
        push_neg at hv
        have h := ih visited queue
        cases hres : bfsScan endU path visited queue rest with
        | inl p =>
          rw [hres] at h
          exact ⟨h.1, List.mem_cons_of_mem n h.2⟩
        | inr vq =>
          rw [hres] at h
          obtain ⟨hend, hsub, hns, newQ, hq, hnew, hv', hcard⟩ := h
          refine ⟨?_, hsub, ?_, newQ, hq,
            fun e he =>
              ⟨(hnew e he).1, List.mem_cons_of_mem _ (hnew e he).2.1, (hnew e he).2.2⟩,
            hv', hcard⟩
          · simp only [List.mem_cons]
            rintro (rfl | hmem)
            · exact hn rfl
            · exact hend hmem
          · intro w hw
            rcases List.mem_cons.1 hw with rfl | hw
            · exact hsub hv
            · exact hns w hw

end Pokec

namespace Pokec

theorem bfsLoop_correct (g : Graph) (a b : Int) (hab : a ≠ b) :
    ∀ (fuel : Nat) (Q : List (Int × List Int)) (V P : Finset Int),
    V ⊆ g.support ∪ {a} →
    (g.support ∪ {a}).card + Q.length ≤ fuel + V.card →
    a ∈ V → b ∉ V →
    V = P ∪ (Q.map Prod.fst).toFinset →
    (∀ e ∈ Q, e.2 ≠ [] ∧ e.2.head? = some a ∧ e.2.getLast? = some e.1 ∧ Chained g e.2 ∧
      Walk g a e.1 (e.2.length - 1) ∧ (∀ m, Walk g a e.1 m → e.2.length - 1 ≤ m)) →
    (∃ (hh : Nat) (Q1 Q2 : List (Int × List Int)), Q = Q1 ++ Q2 ∧
      (∀ e ∈ Q1, e.2.length = hh + 1) ∧ (∀ e ∈ Q2, e.2.length = hh + 2) ∧
      (Q1 = [] → Q2 = []) ∧
      (∀ x m, Walk g a x m → m ≤ hh → x ∈ V) ∧
      (∀ x m, Walk g a x m → m < hh → x ∈ P)) →
    (∀ x ∈ P, ∀ w ∈ g.neighborsList x, w ≠ b ∧ w ∈ V) →
    (match bfsLoop g b fuel Q V with
     | some p => p.head? = some a ∧ p.getLast? = some b ∧ Chained g p ∧
         Walk g a b (p.length - 1) ∧ (∀ m, Walk g a b m → p.length - 1 ≤ m)
     | none => ∀ n, ¬ Walk g a b n) := by
  intro fuel
  induction fuel with
  | zero =>
    intro Q V P hVS hfuel haV hbV hVPQ hQ hlevel hP
    have hQnil : Q = [] := by
      have hcard := Finset.card_le_card hVS
      cases Q with
      | nil => rfl
      | cons e rest => simp [List.length] at hfuel; omega
    subst hQnil
    simp only [bfsLoop]
    intro n hw
    have hVP : V = P := by simpa using hVPQ
    rw [hVP] at haV hP
    have hclosed := bfs_closed_no_walk g a b P haV hab
      (fun x hx w hww => (hP x hx w hww)) n b hw
    exact hclosed.2 rfl
  | succ fuel ih =>
    intro Q V P hVS hfuel haV hbV hVPQ hQ hlevel hP
    obtain ⟨hh, Q1, Q2, hQsplit, hlen1, hlen2, hnorm, hcompV, hcompP⟩ := hlevel
    cases Q with
    | nil =>
      simp only [bfsLoop]
      intro n hw
      have hVP : V = P := by simpa using hVPQ
      rw [hVP] at haV hP
      have hclosed := bfs_closed_no_walk g a b P haV hab
        (fun x hx w hww => (hP x hx w hww)) n b hw
      exact hclosed.2 rfl
    | cons e0 rest =>
      obtain ⟨n1, p1⟩ := e0
      have hQ1ne : Q1 ≠ [] := by
        intro hq1
        rw [hq1, hnorm hq1] at hQsplit
        simp at hQsplit
      obtain ⟨e1, Q1', rfl⟩ : ∃ e1 Q1', Q1 = e1 :: Q1' := by
        cases Q1 with
        | nil => exact absurd rfl hQ1ne
        | cons x xs => exact ⟨x, xs, rfl⟩
      have hQsplit' : (n1, p1) = e1 ∧ rest = Q1' ++ Q2 := by
        simp only [List.cons_append, List.cons.injEq] at hQsplit
        exact ⟨hQsplit.1, hQsplit.2⟩
      obtain ⟨he1, hrest⟩ := hQsplit'
      subst he1
      obtain ⟨hne, hhead, hlast, hchain, hwalk, hmin⟩ := hQ (n1, p1) (List.mem_cons_self _ _)
      have hp1len : p1.length = hh + 1 := hlen1 (n1, p1) (List.mem_cons_self _ _)
      have hw' : Walk g a n1 hh := by
        have : p1.length - 1 = hh := by omega
        rwa [this] at hwalk
      simp only [bfsLoop]
      have hscan := bfsScan_spec b p1 (g.neighborsList n1) V rest
      cases hres : bfsScan b p1 V rest (g.neighborsList n1) with
      | inl p =>
        rw [hres] at hscan
        obtain ⟨hp, hbn⟩ := hscan
        subst hp
        refine ⟨?_, ?_, ?_, ?_, ?_⟩
        · rw [head?_append_of_ne_nil _ _ hne]; exact hhead
        · exact List.getLast?_concat _
        · refine List.Chain'.append hchain (List.chain'_singleton b) ?_
          intro x hx y hy
          simp only [List.head?_cons, Option.mem_def, Option.some.injEq] at hy
          subst hy
          rw [hlast] at hx
          simp only [Option.mem_def, Option.some.injEq] at hx
          subst hx
          exact hbn
        · have hlen : (p1 ++ [b]).length - 1 = hh + 1 := by
            simp [hp1len]
          rw [hlen]
          exact Walk.step hw' hbn
        · intro m hwm
          have hnotle : ¬ m ≤ hh := fun hle => hbV (hcompV b m hwm hle)
          have hlen : (p1 ++ [b]).length - 1 = hh + 1 := by
            simp [hp1len]
          rw [hlen]
          omega
      | inr vq =>
        obtain ⟨V', Q'⟩ := vq
        rw [hres] at hscan
        dsimp only at hscan
        obtain ⟨hbns, hVsub, hnsV, newQ, hq2, hnew, hv', hcard⟩ := hscan
        have hnewP : ∀ e ∈ newQ, e.2 ≠ [] ∧ e.2.head? = some a ∧
            e.2.getLast? = some e.1 ∧ Chained g e.2 ∧
            Walk g a e.1 (e.2.length - 1) ∧ (∀ m, Walk g a e.1 m → e.2.length - 1 ≤ m) := by
          intro e he
          obtain ⟨hp2, hns, hnv⟩ := hnew e he
          rw [hp2]
          refine ⟨by simp, ?_, List.getLast?_concat _, ?_, ?_, ?_⟩
          · rw [head?_append_of_ne_nil _ _ hne]; exact hhead
          · refine List.Chain'.append hchain (List.chain'_singleton e.1) ?_
            intro x hx y hy
            simp only [List.head?_cons, Option.mem_def, Option.some.injEq] at hy
            subst hy
            rw [hlast] at hx
            simp only [Option.mem_def, Option.some.injEq] at hx
            subst hx
            exact hns
          · have hl : (p1 ++ [e.1]).length - 1 = hh + 1 := by simp [hp1len]
            rw [hl]
            exact Walk.step hw' hns
          · intro m hwm
            have hnotle : ¬ m ≤ hh := fun hle => hnv (hcompV e.1 m hwm hle)
            have hl : (p1 ++ [e.1]).length - 1 = hh + 1 := by simp [hp1len]
            rw [hl]
            omega
        have hnewlen : ∀ e ∈ newQ, e.2.length = hh + 2 := by
          intro e he
          rw [(hnew e he).1]
          simp [hp1len]
        refine ih Q' V' (insert n1 P) ?_ ?_ ?_ ?_ ?_ ?_ ?_ ?_
        · rw [hv']
          intro x hx
          rcases Finset.mem_union.1 hx with hx | hx
          · exact hVS hx
          · rw [List.mem_toFinset] at hx
            obtain ⟨e, he, rfl⟩ := List.mem_map.1 hx
            exact Finset.mem_union_left _
              (neighborsList_subset_support g n1 e.1 ((hnew e he).2.1))
        · simp only [List.length_cons] at hfuel
          omega
        · exact hVsub haV
        · rw [hv']
          intro hbm
          rcases Finset.mem_union.1 hbm with hx | hx
          · exact hbV hx
          · rw [List.mem_toFinset] at hx
            obtain ⟨e, he, heq⟩ := List.mem_map.1 hx
            exact hbns (heq ▸ (hnew e he).2.1)
        · rw [hv', hVPQ, hq2]
          ext x
          simp only [Finset.mem_union, Finset.mem_insert, List.map_cons, List.map_append,
            List.toFinset_cons, List.toFinset_append, List.mem_toFinset, List.mem_cons]
          tauto
        · intro e he
          rw [hq2] at he
          rcases List.mem_append.1 he with he | he
          · exact hQ e (List.mem_cons_of_mem _ he)
          · exact hnewP e he
        · by_cases hQ1' : Q1' = []
          · have hPnew : ∀ x m, Walk g a x m → m ≤ hh → x ∈ insert n1 P := by
              intro x m hwm hle
              have hx := hcompV x m hwm hle
              rw [hVPQ] at hx
              rcases Finset.mem_union.1 hx with hx | hx
              · exact Finset.mem_insert_of_mem hx
              · rw [List.map_cons] at hx
                simp only [List.toFinset_cons, Finset.mem_insert] at hx
                rcases hx with rfl | hx
                · exact Finset.mem_insert_self _ _
                · rw [List.mem_toFinset] at hx
                  obtain ⟨e, heR, rfl⟩ := List.mem_map.1 hx
                  have heQ2 : e ∈ Q2 := by
                    rw [hrest, hQ1'] at heR
                    simpa using heR
                  have hm2 := (hQ e (List.mem_cons_of_mem _ heR)).2.2.2.2.2 m hwm
                  rw [hlen2 e heQ2] at hm2
                  omega
            refine ⟨hh + 1, Q2 ++ newQ, [], ?_, ?_, ?_, ?_, ?_, ?_⟩
            · rw [hq2, hrest, hQ1']
              simp
            · intro e he
              rcases List.mem_append.1 he with he | he
              · exact hlen2 e he
              · exact hnewlen e he
            · intro e he; simp at he
            · intro _; rfl
            · intro x m hwm hle
              rcases Nat.lt_or_ge m (hh + 1) with hlt | hge
              · exact hVsub (hcompV x m hwm (by omega))
              · have hm : m = hh + 1 := by omega
                subst hm
                obtain ⟨w, hww, hwx⟩ := walk_succ_inv hwm
                have hwP := hPnew w hh hww (le_refl _)
                rcases Finset.mem_insert.1 hwP with rfl | hwP
                · exact hnsV x hwx
                · exact hVsub (hP w hwP x hwx).2
            · intro x m hwm hlt
              exact hPnew x m hwm (by omega)
          · refine ⟨hh, Q1', Q2 ++ newQ, ?_, ?_, ?_, ?_, ?_, ?_⟩
            · rw [hq2, hrest, List.append_assoc]
            · intro e he
              exact hlen1 e (List.mem_cons_of_mem _ he)
            · intro e he
              rcases List.mem_append.1 he with he | he
              · exact hlen2 e he
              · exact hnewlen e he
            · intro hq1; exact absurd hq1 hQ1'
            · intro x m hwm hle
              exact hVsub (hcompV x m hwm hle)
            · intro x m hwm hlt
              exact Finset.mem_insert_of_mem (hcompP x m hwm hlt)
        · intro x hx w hww
          rcases Finset.mem_insert.1 hx with rfl | hx
          · exact ⟨fun hc => hbns (hc ▸ hww), hnsV w hww⟩
          · exact ⟨(hP x hx w hww).1, hVsub (hP x hx w hww).2⟩

end Pokec

namespace Pokec

/-- Claim C7: for every pair of known nodes, `shortest_path(a, b)` returns the
one-element path `[a]` when `a = b`; for `a ≠ b` it returns a forward-edge
path from `a` to `b` whose hop count equals the true minimal hop count (BFS
distance), and returns not-found exactly when no such path exists
(disconnected endpoints). -/
theorem shortest_path_correct (g : Graph) (a b : Int)
    (ha : a ∈ g.nodes) (hb : b ∈ g.nodes) :
    (a = b → g.shortest_path a b = some [a]) ∧
    (a ≠ b →
      match g.shortest_path a b with
      | some p => p.head? = some a ∧ p.getLast? = some b ∧ Chained g p ∧
          Walk g a b (p.length - 1) ∧ (∀ m, Walk g a b m → p.length - 1 ≤ m)
      | none => ∀ n, ¬ Walk g a b n) := by
  refine ⟨fun h => by simp [Graph.shortest_path, h], fun hab => ?_⟩
  have hsp : g.shortest_path a b =
      bfsLoop g b (g.support.card + 1) [(a, [a])] {a} := by
    simp [Graph.shortest_path, hab, ha, hb]
  rw [hsp]
  have h1 : ({a} : Finset Int) ⊆ g.support ∪ {a} := by
    intro x hx
    simp only [Finset.mem_singleton] at hx
    subst hx
    simp
  have h2 : (g.support ∪ {a}).card + ([(a, [a])] : List (Int × List Int)).length ≤
      (g.support.card + 1) + ({a} : Finset Int).card := by
    have hc := Finset.card_union_le g.support ({a} : Finset Int)
    simp only [Finset.card_singleton] at hc
    simp only [List.length_cons, List.length_nil, Finset.card_singleton]
    omega
  have h3 : a ∈ ({a} : Finset Int) := Finset.mem_singleton_self a
  have h4 : b ∉ ({a} : Finset Int) := by
    simp only [Finset.mem_singleton]
    exact fun hc => hab hc.symm
  have h5 : ({a} : Finset Int) =
      ∅ ∪ (([(a, [a])] : List (Int × List Int)).map Prod.fst).toFinset := by
    simp
  have h6 : ∀ e ∈ ([(a, [a])] : List (Int × List Int)), e.2 ≠ [] ∧
      e.2.head? = some a ∧ e.2.getLast? = some e.1 ∧ Chained g e.2 ∧
      Walk g a e.1 (e.2.length - 1) ∧ (∀ m, Walk g a e.1 m → e.2.length - 1 ≤ m) := by
    intro e he
    simp only [List.mem_cons, List.not_mem_nil, or_false] at he
    subst he
    exact ⟨by simp, by simp, by simp, List.chain'_singleton a, Walk.refl, fun m _ => by simp⟩
  have h7 : ∃ (hh : Nat) (Q1 Q2 : List (Int × List Int)),
      ([(a, [a])] : List (Int × List Int)) = Q1 ++ Q2 ∧
      (∀ e ∈ Q1, e.2.length = hh + 1) ∧ (∀ e ∈ Q2, e.2.length = hh + 2) ∧
      (Q1 = [] → Q2 = []) ∧
      (∀ x m, Walk g a x m → m ≤ 0 + hh → x ∈ ({a} : Finset Int)) ∧
      (∀ x m, Walk g a x m → m < hh → x ∈ (∅ : Finset Int)) := by
    refine ⟨0, [(a, [a])], [], by simp, ?_, by simp, by simp, ?_, ?_⟩
    · intro e he
      simp only [List.mem_cons, List.not_mem_nil, or_false] at he
      subst he
      simp
    · intro x m hw hle
      have hm : m = 0 := by omega
      subst hm
      rw [walk_zero_inv hw]
      simp
    · intro x m _ hlt
      omega
  have h8 : ∀ x ∈ (∅ : Finset Int), ∀ w ∈ g.neighborsList x,
      w ≠ b ∧ w ∈ ({a} : Finset Int) := by
    intro x hx
    simp at hx
  obtain ⟨hh, Q1, Q2, hsplit, hl1, hl2, hn, hcV, hcP⟩ := h7
  exact bfsLoop_correct g a b hab (g.support.card + 1) [(a, [a])] {a} ∅ h1 h2 h3 h4 h5 h6
    ⟨hh, Q1, Q2, hsplit, hl1, hl2, hn, by simpa using hcV, hcP⟩ h8

/-- Witness for `shortest_path_correct`: on the specification's example graph
(edges 1→2, 1→16, 16→17, 17→18) the BFS path from 1 to 18 is
`[1, 16, 17, 18]` (3 hops), and the theorem's conclusions hold for it. -/
theorem shortest_path_correct_witness :
    gEx.shortest_path 1 18 = some [1, 16, 17, 18] ∧
    (match gEx.shortest_path 1 18 with
     | some p => p.head? = some 1 ∧ p.getLast? = some 18 ∧ Chained gEx p ∧
         Walk gEx 1 18 (p.length - 1) ∧ (∀ m, Walk gEx 1 18 m → p.length - 1 ≤ m)
     | none => ∀ n, ¬ Walk gEx 1 18 n) :=
  ⟨by decide, (shortest_path_correct gEx 1 18 (by decide) (by decide)).2 (by decide)⟩

end Pokec
